import Mathlib

/-!
# operator-binaries: wrapping a secp256k1 operator key

A shallow embedding of `main.go` and a verification of its encoder
(`marshalSecp256k1PrivateKeyToPKCS8`) and of its envelope builder
(`wrapOperatorPrivateKey`).

Byte slices are lists of `Byte`; Go's multiple return values are records;
the library calls whose result is a fixed, standardised encoding
(`big.Int.Bytes`, `encoding/asn1`, `encoding/base64`) are embedded as
executable functions, the cryptographic and parsing libraries
(`crypto/rsa`, tink `kwp/subtle`, `crypto/rand`, `encoding/pem`,
`crypto/x509`, go-ethereum `crypto`) are the fields of an environment `Env`.
-/

set_option autoImplicit false

namespace OperatorBinaries

/-! ## Bytes and slices -/

/-- A Go `byte`. -/
abbrev Byte := Fin 256

/-- Go's conversion `byte(n)` of a non-negative integer: the low eight bits. -/
def byte (n : Nat) : Byte := ⟨n % 256, Nat.mod_lt _ (by decide)⟩

/-- Go's `make([]byte, n)`: `n` zero bytes. -/
def make (n : Nat) : List Byte := List.replicate n 0

/-- Go's `copy(dst, src)`, as the new content of `dst`: the first
`min (len dst) (len src)` bytes are overwritten. -/
def copy (dst src : List Byte) : List Byte :=
  src.take dst.length ++ dst.drop src.length

/-- Go's `copy(dst[off:], src)`, as the new content of `dst`. -/
def copyAt (dst : List Byte) (off : Nat) (src : List Byte) : List Byte :=
  dst.take off ++ copy (dst.drop off) src

/-- The unsigned integer a byte string denotes, read big-endian. -/
def beValue (bs : List Byte) : Nat :=
  bs.foldl (fun acc b => acc * 256 + b.val) 0

/-! ## `math/big`: `(*Int).Bytes` -/

/-- Big-endian digits of `n` in base 256 without leading zeros; `fuel` bounds
the number of digits. -/
def bigBytesAux : Nat → Nat → List Byte
  | 0, _ => []
  | fuel + 1, n => if n = 0 then [] else bigBytesAux fuel (n / 256) ++ [byte n]

/-- The natural big-endian encoding of a natural number (empty for zero).
A number `n` has at most `n` digits, so the fuel never runs out. -/
def natBytes (n : Nat) : List Byte := bigBytesAux n n

/-- Go's `x.Bytes()` for a `*big.Int`: the absolute value of `x` as a big-endian
byte slice. -/
def bigIntBytes (x : Int) : List Byte := natBytes x.natAbs

/-! ## Errors -/

/-- Go `error` values that occur in the program. -/
inductive Error where
  /-- An error made by `errors.New`. -/
  | errorsNew (text : String)
  /-- An `asn1.StructuralError`. -/
  | asn1Structural (text : String)
  /-- An error returned by one of the libraries of the environment. -/
  | library (text : String)
  deriving DecidableEq, Repr

/-! ## `encoding/asn1`: `Marshal` for the Go types of the two records -/

namespace asn1

/-- Field parameters parsed from a struct tag (`asn1:"optional,explicit,tag:0"`);
the program uses no other parameter. -/
structure fieldParameters where
  optional : Bool := false
  explicit : Bool := false
  tag : Option Nat := none
  deriving DecidableEq, Repr

/-- Go values of the types that the two marshalled structs are made of. A nil
slice and an empty slice are both the empty list. -/
inductive GoValue where
  /-- An `int`. -/
  | int (v : Int)
  /-- A `[]byte`. -/
  | bytes (v : List Byte)
  /-- An `asn1.ObjectIdentifier` (the components in the program are
  non-negative constants). -/
  | objectIdentifier (v : List Nat)
  /-- An `asn1.BitString`. -/
  | bitString (bytes : List Byte) (bitLength : Nat)
  /-- A struct: its fields in order, each with the parameters of its tag. -/
  | struct (fields : List (GoValue × fieldParameters))

def ClassUniversal : Nat := 0
def ClassContextSpecific : Nat := 2

def TagInteger : Nat := 2
def TagBitString : Nat := 3
def TagOctetString : Nat := 4
def TagOID : Nat := 6
def TagSequence : Nat := 16

/-- The loop `for i := n; i > 0; i >>= 7 { l++ }`. -/
def base128IntLengthLoop : Nat → Nat → Nat
  | 0, _ => 0
  | fuel + 1, i => if i > 0 then 1 + base128IntLengthLoop fuel (i >>> 7) else 0

/-- Go's `base128IntLength`. -/
def base128IntLength (n : Nat) : Nat :=
  if n = 0 then 1 else base128IntLengthLoop n n

/-- The loop `for i := l - 1; i >= 0; i--` of `appendBase128Int`; the argument
is `i + 1`. -/
def appendBase128IntLoop (n : Nat) : Nat → List Byte
  | 0 => []
  | i + 1 =>
    let o := (n >>> (i * 7)) % 256 &&& 0x7f
    let o := if i ≠ 0 then o ||| 0x80 else o
    byte o :: appendBase128IntLoop n i

/-- Go's `appendBase128Int(dst, n)`. -/
def appendBase128Int (dst : List Byte) (n : Nat) : List Byte :=
  dst ++ appendBase128IntLoop n (base128IntLength n)

/-- The loop `for i > 255 { numBytes++; i >>= 8 }` of `lengthLength`. -/
def lengthLengthLoop : Nat → Nat → Nat → Nat
  | 0, _, numBytes => numBytes
  | fuel + 1, i, numBytes =>
    if i > 255 then lengthLengthLoop fuel (i >>> 8) (numBytes + 1) else numBytes

/-- Go's `lengthLength`. -/
def lengthLength (i : Nat) : Nat := lengthLengthLoop i i 1

/-- The loop `for ; n > 0; n--` of `appendLength`. -/
def appendLengthLoop (i : Nat) : Nat → List Byte
  | 0 => []
  | n + 1 => byte (i >>> (n * 8)) :: appendLengthLoop i n

/-- Go's `appendLength(dst, i)`. -/
def appendLength (dst : List Byte) (i : Nat) : List Byte :=
  dst ++ appendLengthLoop i (lengthLength i)

/-- Go's `tagAndLength`. -/
structure tagAndLength where
  cls : Nat
  tag : Nat
  length : Nat
  isCompound : Bool

/-- Go's `appendTagAndLength(dst, t)`. -/
def appendTagAndLength (dst : List Byte) (t : tagAndLength) : List Byte :=
  let b := (t.cls <<< 6) % 256
  let b := if t.isCompound then b ||| 0x20 else b
  let dst :=
    if t.tag ≥ 31 then
      appendBase128Int (dst ++ [byte (b ||| 0x1f)]) t.tag
    else
      dst ++ [byte (b ||| t.tag % 256)]
  if t.length ≥ 128 then
    let l := lengthLength t.length
    appendLength (dst ++ [byte (0x80 ||| l % 256)]) t.length
  else
    dst ++ [byte t.length]

/-- The two loops of `int64Encoder.Len`: `for i > 127 { n++; i >>= 8 }` and
`for i < -128 { n++; i >>= 8 }`. An `int64` leaves both after at most eight
rounds. -/
def int64LenLoop : Nat → Int → Nat → Nat
  | 0, _, n => n
  | fuel + 1, i, n =>
    if i > 127 then int64LenLoop fuel (i >>> 8) (n + 1)
    else if i < -128 then int64LenLoop fuel (i >>> 8) (n + 1)
    else n

/-- Go's `int64Encoder.Len`. -/
def int64Len (i : Int) : Nat := int64LenLoop 8 i 1

/-- Go's `int64Encoder.Encode`: byte `j` is `byte(i >> ((n-1-j)*8))`; the
argument of the loop is the number of bytes still to write. -/
def int64EncodeLoop (i : Int) : Nat → List Byte
  | 0 => []
  | k + 1 => byte ((i >>> (k * 8)) % 256).toNat :: int64EncodeLoop i k

/-- The content octets of an `int`. -/
def int64Encode (i : Int) : List Byte := int64EncodeLoop i (int64Len i)

/-- Go's `makeObjectIdentifier` followed by `oidEncoder.Encode`. -/
def makeObjectIdentifier (oid : List Nat) : Except Error (List Byte) :=
  match oid with
  | o0 :: o1 :: rest =>
    if o0 > 2 ∨ (o0 < 2 ∧ o1 ≥ 40) then
      .error (.asn1Structural "invalid object identifier")
    else
      .ok (rest.foldl appendBase128Int (appendBase128Int [] (o0 * 40 + o1)))
  | _ => .error (.asn1Structural "invalid object identifier")

/-- Go's `bitStringEncoder.Encode`. -/
def bitStringEncode (bytes : List Byte) (bitLength : Nat) : List Byte :=
  byte ((8 - bitLength % 8) % 8) :: bytes

/-- Go's `getUniversalType`: the universal tag of a Go type and whether it is
compound. -/
def getUniversalType : GoValue → Nat × Bool
  | .int _ => (TagInteger, false)
  | .bitString _ _ => (TagBitString, false)
  | .bytes _ => (TagOctetString, false)
  | .objectIdentifier _ => (TagOID, false)
  | .struct _ => (TagSequence, true)

/-- The test `reflect.DeepEqual(v.Interface(), reflect.Zero(v.Type()).Interface())`
that `makeField` applies to an optional field. -/
def isZero : GoValue → Bool
  | .int v => v == 0
  | .bytes v => v.isEmpty
  | .objectIdentifier v => v.isEmpty
  | .bitString b n => b.isEmpty && n == 0
  | .struct fields => allZero fields
where
  /-- All fields of a struct are zero. -/
  allZero : List (GoValue × fieldParameters) → Bool
    | [] => true
    | (v, _) :: rest => isZero v && allZero rest

/-- Go's `makeField` from the point where it has called `makeBody`: `body` is
what `makeBody` returned for the same value. An optional field that holds its
zero value is encoded as nothing. -/
def makeFieldOf (v : GoValue) (params : fieldParameters)
    (body : Except Error (List Byte)) : Except Error (List Byte) :=
  if params.optional && isZero v then .ok []
  else
    match body with
    | .error err => .error err
    | .ok body =>
      let (tag, isCompound) := getUniversalType v
      let bodyLen := body.length
      match params.tag with
      | some ptag =>
        if params.explicit then
          let inner := appendTagAndLength [] ⟨ClassUniversal, tag, bodyLen, isCompound⟩
          let outer := appendTagAndLength []
            ⟨ClassContextSpecific, ptag, bodyLen + inner.length, true⟩
          .ok (outer ++ (inner ++ body))
        else
          .ok (appendTagAndLength [] ⟨ClassContextSpecific, ptag, bodyLen, isCompound⟩ ++ body)
      | none =>
        .ok (appendTagAndLength [] ⟨ClassUniversal, tag, bodyLen, isCompound⟩ ++ body)

mutual

/-- Go's `makeBody`, with the encoder it returns run at once: the content
octets of a value. -/
def makeBody : GoValue → Except Error (List Byte)
  | .int v => .ok (int64Encode v)
  | .bytes v => .ok v
  | .objectIdentifier v => makeObjectIdentifier v
  | .bitString b n => .ok (bitStringEncode b n)
  | .struct fields => makeFields fields

/-- The `multiEncoder` of a struct: `makeField` on each field in order,
stopping at the first error. -/
def makeFields : List (GoValue × fieldParameters) → Except Error (List Byte)
  | [] => .ok []
  | (v, params) :: rest =>
    match makeFieldOf v params (makeBody v) with
    | .error err => .error err
    | .ok first =>
      match makeFields rest with
      | .error err => .error err
      | .ok others => .ok (first ++ others)

end

/-- Go's `makeField`: the DER encoding of a field. -/
def makeField (v : GoValue) (params : fieldParameters) : Except Error (List Byte) :=
  makeFieldOf v params (makeBody v)

/-- Go's `asn1.Marshal(val)`: `makeField` with no parameters. -/
def Marshal (val : GoValue) : Except Error (List Byte) :=
  makeField val {}

end asn1

/-! ## `crypto/ecdsa` keys -/

/-- Go's `elliptic.CurveParams`. -/
structure CurveParams where
  P : Int
  N : Int
  B : Int
  Gx : Int
  Gy : Int
  BitSize : Int
  Name : String
  deriving DecidableEq, Repr

/-- Go's `ecdsa.PublicKey`. -/
structure PublicKey where
  Curve : CurveParams
  X : Int
  Y : Int
  deriving DecidableEq, Repr

/-- Go's `ecdsa.PrivateKey`. -/
structure PrivateKey where
  PublicKey : PublicKey
  D : Int
  deriving DecidableEq, Repr

/-! ## The encoder -/

/-- Lines 115-120 of `main.go`: the bytes of `key.D`, left-padded to 32 bytes
when they are fewer. -/
def privateKeyOctets (key : PrivateKey) : List Byte :=
  let privateKeyBytes := bigIntBytes key.D
  if privateKeyBytes.length < 32 then
    let padded := make 32
    copyAt padded (32 - privateKeyBytes.length) privateKeyBytes
  else
    privateKeyBytes

/-- The struct `sec1Key` of `main.go` with the given private-key octets. -/
def sec1Key (privateKeyBytes : List Byte) : asn1.GoValue :=
  let secp256k1OID : List Nat := [1, 3, 132, 0, 10]
  .struct
    [ (.int 1, {}),
      (.bytes privateKeyBytes, {}),
      (.objectIdentifier secp256k1OID, { optional := true, explicit := true, tag := some 0 }),
      (.bitString [] 0, { optional := true, explicit := true, tag := some 1 }) ]

/-- The struct `pkcs8` of `main.go` around the DER of the inner record. -/
def pkcs8 (sec1Der : List Byte) : asn1.GoValue :=
  let secp256k1OID : List Nat := [1, 3, 132, 0, 10]
  .struct
    [ (.int 0, {}),
      (.struct
          [ (.objectIdentifier [1, 2, 840, 10045, 2, 1], {}),
            (.objectIdentifier secp256k1OID, {}) ], {}),
      (.bytes sec1Der, {}) ]

/-- The function `marshalSecp256k1PrivateKeyToPKCS8` of `main.go`. -/
def marshalSecp256k1PrivateKeyToPKCS8 (key : PrivateKey) : Except Error (List Byte) :=
  let privateKeyBytes := privateKeyOctets key
  match asn1.Marshal (sec1Key privateKeyBytes) with
  | .error err => .error err
  | .ok sec1Der => asn1.Marshal (pkcs8 sec1Der)

/-! ## `encoding/base64`: `StdEncoding.EncodeToString` -/

namespace base64

/-- Go's `encodeStd`, the standard alphabet. -/
def encodeStd : List Char :=
  "ABCDEFGHIJKLMNOPQRSTUVWXYZabcdefghijklmnopqrstuvwxyz0123456789+/".toList

/-- Go's `StdPadding`. -/
def padChar : Char := '='

/-- The table lookup `enc.encode[i]`. -/
def encodeChar (i : Nat) : Char := encodeStd.getD i 'A'

/-- Go's `(*Encoding).Encode` for `StdEncoding`: whole groups of three bytes,
then the remaining one or two bytes with padding. -/
def Encode : List Byte → List Char
  | [] => []
  | [a] =>
    let val := a.val <<< 16
    [encodeChar (val >>> 18 &&& 0x3F), encodeChar (val >>> 12 &&& 0x3F), padChar, padChar]
  | [a, b] =>
    let val := a.val <<< 16 ||| b.val <<< 8
    [encodeChar (val >>> 18 &&& 0x3F), encodeChar (val >>> 12 &&& 0x3F),
      encodeChar (val >>> 6 &&& 0x3F), padChar]
  | a :: b :: c :: rest =>
    let val := a.val <<< 16 ||| b.val <<< 8 ||| c.val
    encodeChar (val >>> 18 &&& 0x3F) :: encodeChar (val >>> 12 &&& 0x3F) ::
      encodeChar (val >>> 6 &&& 0x3F) :: encodeChar (val &&& 0x3F) :: Encode rest

/-- Go's `StdEncoding.EncodeToString`. -/
def EncodeToString (src : List Byte) : String := String.mk (Encode src)

/-- The value of a character of the standard alphabet. -/
def decodeChar (c : Char) : Option Nat :=
  if c ∈ encodeStd then some (encodeStd.indexOf c) else none

/-- Decoding of standard, padded base64 (RFC 4648, section 4): groups of four
characters, padding allowed in the last group only. -/
def Decode : List Char → Option (List Byte)
  | [] => some []
  | c0 :: c1 :: c2 :: c3 :: rest =>
    if rest = [] ∧ c3 = padChar then
      if c2 = padChar then
        match decodeChar c0, decodeChar c1 with
        | some s0, some s1 => some [byte (s0 * 4 + s1 / 16)]
        | _, _ => none
      else
        match decodeChar c0, decodeChar c1, decodeChar c2 with
        | some s0, some s1, some s2 =>
          some [byte (s0 * 4 + s1 / 16), byte (s1 % 16 * 16 + s2 / 4)]
        | _, _, _ => none
    else
      match decodeChar c0, decodeChar c1, decodeChar c2, decodeChar c3, Decode rest with
      | some s0, some s1, some s2, some s3, some tail =>
        some (byte (s0 * 4 + s1 / 16) :: byte (s1 % 16 * 16 + s2 / 4) ::
          byte (s2 % 4 * 64 + s3) :: tail)
      | _, _, _, _, _ => none
  | _ => none

/-- Decoding of a base64 text. -/
def DecodeString (s : String) : Option (List Byte) := Decode s.data

end base64

/-! ## The libraries of the envelope builder -/

/-- Go's `common.Address`, twenty bytes. -/
abbrev Address := List Byte

/-- The zero value `common.Address{}`. -/
def zeroAddress : Address := List.replicate 20 0

/-- Go's `rsa.PublicKey`. -/
structure RSAPublicKey where
  N : Int
  E : Int
  deriving DecidableEq, Repr

/-- The loop behind `(*big.Int).BitLen`: the number of binary digits. -/
def bitLenAux : Nat → Nat → Nat
  | 0, _ => 0
  | fuel + 1, n => if n = 0 then 0 else bitLenAux fuel (n / 2) + 1

/-- Go's `x.BitLen()`: the length of the absolute value of `x` in bits. -/
def bitLen (x : Int) : Nat := bitLenAux x.natAbs x.natAbs

/-- Go's `(*rsa.PublicKey).Size`: the modulus size in bytes,
`(pub.N.BitLen() + 7) / 8`. -/
def RSAPublicKey.Size (pub : RSAPublicKey) : Nat := (bitLen pub.N + 7) / 8

/-- Go's `pem.Block`. -/
structure PemBlock where
  blockType : String
  Bytes : List Byte
  deriving DecidableEq, Repr

/-- The dynamic type behind the `any` that `x509.ParsePKIXPublicKey` returns. -/
inductive PKIXPublicKey where
  /-- A `*rsa.PublicKey`. -/
  | rsa (pub : RSAPublicKey)
  /-- A `*ecdsa.PublicKey`. -/
  | ecdsa (pub : PublicKey)
  /-- A key of another supported algorithm. -/
  | other (algorithm : String)
  deriving DecidableEq, Repr

/-- The library functions `wrapOperatorPrivateKey` calls. `ρ` is the state of
the random source `rand.Reader`, `κ` the type of a tink `*subtle.KWP`. -/
structure Env (ρ κ : Type) where
  /-- The go-ethereum function `crypto.HexToECDSA`. -/
  HexToECDSA : String → Except Error PrivateKey
  /-- The go-ethereum function `crypto.PubkeyToAddress`. -/
  PubkeyToAddress : PublicKey → Address
  /-- Go's `pem.Decode` on the bytes of a string; `none` is a nil block. -/
  pemDecode : String → Option PemBlock
  /-- Go's `x509.ParsePKIXPublicKey`. -/
  ParsePKIXPublicKey : List Byte → Except Error PKIXPublicKey
  /-- Go's `rand.Read` on a buffer of the given length: the bytes read, or an
  error, and the source afterwards. -/
  randRead : ρ → Nat → Except Error (List Byte) × ρ
  /-- Tink's `subtle.NewKWP`. -/
  NewKWP : List Byte → Except Error κ
  /-- Tink's `(*KWP).Wrap`. -/
  Wrap : κ → List Byte → Except Error (List Byte)
  /-- Go's `rsa.EncryptOAEP` with `sha256.New()` and `rand.Reader`: public key,
  message and label; the ciphertext, or an error, and the source afterwards. -/
  EncryptOAEP : ρ → RSAPublicKey → List Byte → List Byte → Except Error (List Byte) × ρ

/-- A call that `wrapOperatorPrivateKey` makes. -/
inductive Call where
  | HexToECDSA
  | PubkeyToAddress
  | marshalSecp256k1PrivateKeyToPKCS8
  | pemDecode
  | ParsePKIXPublicKey
  | randRead (n : Nat)
  | NewKWP
  | Wrap
  | EncryptOAEP
  | EncodeToString
  deriving DecidableEq, Repr

/-- What a run of `wrapOperatorPrivateKey` gives: the three values the Go
function returns, the random source after the run, and the calls made, in
program order. -/
structure Result (ρ : Type) where
  address : Address
  ciphertext : String
  err : Option Error
  rand : ρ
  calls : List Call

/-- Go's `strings.ReplaceAll(s, "\\n", "\n")` on the characters of `s`: every
backslash followed by `n` becomes a line feed, scanning from the left. -/
def replaceBackslashN : List Char → List Char
  | [] => []
  | [c] => [c]
  | c :: d :: rest =>
    if c = Char.ofNat 92 ∧ d = Char.ofNat 110 then
      Char.ofNat 10 :: replaceBackslashN rest
    else
      c :: replaceBackslashN (d :: rest)

/-! ## The envelope builder -/

/-- The function `wrapOperatorPrivateKey` of `main.go`; the two flags and the
random source are arguments. -/
def wrapOperatorPrivateKey {ρ κ : Type} (env : Env ρ κ)
    (operatorPriv wrappingPEM : String) (rand : ρ) : Result ρ :=
  if operatorPriv = "" then
    ⟨zeroAddress, "", some (.errorsNew "operator private key is required"), rand, []⟩
  else
  match env.HexToECDSA operatorPriv with
  | .error err => ⟨zeroAddress, "", some err, rand, [.HexToECDSA]⟩
  | .ok priv =>
  let evmPublicKey := env.PubkeyToAddress priv.PublicKey
  let calls := [.HexToECDSA, .PubkeyToAddress, .marshalSecp256k1PrivateKeyToPKCS8]
  match marshalSecp256k1PrivateKeyToPKCS8 priv with
  | .error err => ⟨zeroAddress, "", some err, rand, calls⟩
  | .ok pkcs8Bytes =>
  if wrappingPEM = "" then
    ⟨zeroAddress, "", some (.errorsNew "wrapping PEM is required"), rand, calls⟩
  else
  let fixedWrappingPEM := String.mk (replaceBackslashN wrappingPEM.data)
  let calls := calls ++ [.pemDecode]
  match env.pemDecode fixedWrappingPEM with
  | none => ⟨zeroAddress, "", some (.errorsNew "failed to decode PEM block"), rand, calls⟩
  | some block =>
  let calls := calls ++ [.ParsePKIXPublicKey]
  match env.ParsePKIXPublicKey block.Bytes with
  | .error err => ⟨zeroAddress, "", some err, rand, calls⟩
  | .ok pubKeyInterface =>
  match pubKeyInterface with
  | .ecdsa _ => ⟨zeroAddress, "", some (.errorsNew "not an RSA public key"), rand, calls⟩
  | .other _ => ⟨zeroAddress, "", some (.errorsNew "not an RSA public key"), rand, calls⟩
  | .rsa rsaPub =>
  -- Generate AES key
  let aesKey := make 32
  let calls := calls ++ [.randRead aesKey.length]
  match env.randRead rand aesKey.length with
  | (.error err, rand) => ⟨zeroAddress, "", some err, rand, calls⟩
  | (.ok read, rand) =>
  let aesKey := copy aesKey read
  -- KWP encryption of the private key
  let calls := calls ++ [.NewKWP]
  match env.NewKWP aesKey with
  | .error err => ⟨zeroAddress, "", some err, rand, calls⟩
  | .ok wrapper =>
  let calls := calls ++ [.Wrap]
  match env.Wrap wrapper pkcs8Bytes with
  | .error err => ⟨zeroAddress, "", some err, rand, calls⟩
  | .ok wrappedKey =>
  -- Encrypt AES key with RSA
  let calls := calls ++ [.EncryptOAEP]
  match env.EncryptOAEP rand rsaPub aesKey [] with
  | (.error err, rand) => ⟨zeroAddress, "", some err, rand, calls⟩
  | (.ok encryptedAESKey, rand) =>
  let final := encryptedAESKey ++ wrappedKey
  let ciphertext := base64.EncodeToString final
  ⟨evmPublicKey, ciphertext, none, rand, calls ++ [.EncodeToString]⟩

/-! ## The recipient of an envelope

The program only produces envelopes. What follows is the other side, written
from the specification: reading a DER record (X.690) and opening an
envelope. -/

/-- DER of a SEQUENCE with the given content, as `asn1.Marshal` writes it. -/
def derSequence (body : List Byte) : List Byte :=
  asn1.appendTagAndLength []
    ⟨asn1.ClassUniversal, asn1.TagSequence, body.length, true⟩ ++ body

/-- DER of an OCTET STRING with the given content, as `asn1.Marshal` writes
it. -/
def derOctetString (content : List Byte) : List Byte :=
  asn1.appendTagAndLength []
    ⟨asn1.ClassUniversal, asn1.TagOctetString, content.length, false⟩ ++ content

/-- The length octets that `appendTagAndLength` writes for a length: the short
form below 128, else the long form. -/
def lengthOctets (len : Nat) : List Byte :=
  if len ≥ 128 then
    byte (0x80 ||| asn1.lengthLength len % 256) ::
      asn1.appendLengthLoop len (asn1.lengthLength len)
  else [byte len]

/-- Reads DER length octets (X.690, 8.1.3): the short form, or the long form
with its count of length octets. -/
def readLength : List Byte → Option (Nat × List Byte)
  | [] => none
  | b :: rest =>
    if b.val < 128 then some (b.val, rest)
    else
      let count := b.val - 128
      if rest.length < count then none
      else some (beValue (rest.take count), rest.drop count)

/-- Reads one DER element with a low tag number: its identifier octet, its
content octets and what follows it. -/
def readTLV : List Byte → Option (Byte × List Byte × List Byte)
  | [] => none
  | identifier :: rest =>
    match readLength rest with
    | none => none
    | some (length, rest) =>
      if rest.length < length then none
      else some (identifier, rest.take length, rest.drop length)

/-- Reads the content octets of an OBJECT IDENTIFIER (X.690, 8.19): the
sub-identifiers in base 128, the first one holding the first two arcs. -/
def readOID (content : List Byte) : List Nat :=
  let step := fun (state : List Nat × Nat) (b : Byte) =>
    let value := state.2 * 128 + b.val % 128
    if b.val < 128 then (state.1 ++ [value], 0) else (state.1, value)
  match (content.foldl step ([], 0)).1 with
  | [] => []
  | first :: others =>
    (if first < 40 then [0, first] else if first < 80 then [1, first - 40]
      else [2, first - 80]) ++ others

/-- What a PKCS#8 record for an elliptic-curve key holds: the fields of the
outer key-info record and of the inner key record. -/
structure KeyInfo where
  version : List Byte
  algorithm : List Nat
  parameters : List Nat
  innerVersion : List Byte
  privateKey : List Byte
  namedCurve : Option (List Nat)
  publicKey : Option (List Byte)
  deriving DecidableEq, Repr

/-- Reads the optional fields `[0] namedCurve` and `[1] publicKey` that end
the inner key record. -/
def readOptionalFields (input : List Byte) : Option (Option (List Nat) × Option (List Byte)) :=
  match input with
  | [] => some (none, none)
  | _ =>
    match readTLV input with
    | none => none
    | some (identifier, content, rest) =>
      if identifier = 0xA0 then
        match readTLV content with
        | some (6, oid, []) =>
          match rest with
          | [] => some (some (readOID oid), none)
          | _ =>
            match readTLV rest with
            | some (0xA1, bits, []) => some (some (readOID oid), some bits)
            | _ => none
        | _ => none
      else if identifier = 0xA1 ∧ rest = [] then some (none, some content)
      else none

/-- Reads the inner key record: SEQUENCE of INTEGER version, OCTET STRING
private key and the optional fields. -/
def readInner (der : List Byte) : Option (List Byte × List Byte × Option (List Nat) × Option (List Byte)) :=
  match readTLV der with
  | some (0x30, body, []) =>
    match readTLV body with
    | some (2, innerVersion, rest) =>
      match readTLV rest with
      | some (4, privateKey, rest) =>
        match readOptionalFields rest with
        | some (namedCurve, publicKey) => some (innerVersion, privateKey, namedCurve, publicKey)
        | none => none
      | _ => none
    | _ => none
  | _ => none

/-- Reads a PKCS#8 record: SEQUENCE of INTEGER version, SEQUENCE of two
OBJECT IDENTIFIERs, and an OCTET STRING that holds the inner key record. -/
def readKeyInfo (der : List Byte) : Option KeyInfo :=
  match readTLV der with
  | some (0x30, body, []) =>
    match readTLV body with
    | some (2, version, rest) =>
      match readTLV rest with
      | some (0x30, algo, rest) =>
        match readTLV algo with
        | some (6, algorithm, algoRest) =>
          match readTLV algoRest with
          | some (6, parameters, []) =>
            match readTLV rest with
            | some (4, inner, []) =>
              match readInner inner with
              | some (innerVersion, privateKey, namedCurve, publicKey) =>
                some ⟨version, readOID algorithm, readOID parameters, innerVersion,
                  privateKey, namedCurve, publicKey⟩
              | none => none
            | _ => none
          | _ => none
        | _ => none
      | _ => none
    | _ => none
  | _ => none

/-- Opening an envelope, as the specification describes it: base64-decode the
text, split at `k`, decrypt the first part to the AES key and unwrap the
second part with that key. -/
def openEnvelope (decrypt : List Byte → Option (List Byte))
    (unwrap : List Byte → List Byte → Option (List Byte))
    (k : Nat) (ciphertext : String) : Option (List Byte) :=
  match base64.DecodeString ciphertext with
  | none => none
  | some final =>
    match decrypt (final.take k) with
    | none => none
    | some aesKey => unwrap aesKey (final.drop k)

/-! ## A small environment to run the program in

An executable instance of `Env`, with simple stand-ins for the libraries: a
random source that is a finite tape of bytes, a hexadecimal scalar parser with
the range checks of go-ethereum, and invertible stand-ins for the two
ciphers that keep the lengths and the error cases of the real ones. -/

namespace demo

/-- The value of a hexadecimal digit. -/
def hexVal (c : Char) : Option Nat :=
  if 48 ≤ c.toNat ∧ c.toNat ≤ 57 then some (c.toNat - 48)
  else if 97 ≤ c.toNat ∧ c.toNat ≤ 102 then some (c.toNat - 87)
  else if 65 ≤ c.toNat ∧ c.toNat ≤ 70 then some (c.toNat - 55)
  else none

/-- Go's `hex.DecodeString`. -/
def hexDecode : List Char → Option (List Byte)
  | [] => some []
  | [_] => none
  | a :: b :: rest =>
    match hexVal a, hexVal b, hexDecode rest with
    | some x, some y, some tail => some (byte (x * 16 + y) :: tail)
    | _, _, _ => none

/-- The order of the group of secp256k1. -/
def secp256k1N : Nat :=
  0xFFFFFFFFFFFFFFFFFFFFFFFFFFFFFFFEBAAEDCE6AF48A03BBFD25E8CD0364141

/-- The curve of the keys; only its name and size matter here. -/
def curve : CurveParams := ⟨0, secp256k1N, 7, 0, 0, 256, "secp256k1"⟩

/-- A stand-in for `crypto.HexToECDSA`: 64 hexadecimal digits of a scalar in
`[1, N)`. The public point is not computed. -/
def HexToECDSA (s : String) : Except Error PrivateKey :=
  match hexDecode s.data with
  | none => .error (.library "invalid hex data for private key")
  | some d =>
    if d.length ≠ 32 then .error (.library "invalid length, need 256 bits")
    else if beValue d ≥ secp256k1N then .error (.library "invalid private key, >= N")
    else if beValue d = 0 then .error (.library "invalid private key, zero or negative")
    else .ok ⟨⟨curve, 0, 0⟩, beValue d⟩

/-- A stand-in for `crypto.PubkeyToAddress`. -/
def PubkeyToAddress (_pub : PublicKey) : Address := List.replicate 20 0x11

/-- A stand-in for `pem.Decode`: the block holds the bytes of the text. -/
def pemDecode (s : String) : Option PemBlock :=
  if s = "" then none else some ⟨"PUBLIC KEY", s.data.map (fun c => byte c.toNat)⟩

/-- A stand-in for `x509.ParsePKIXPublicKey`: a first byte `R` announces an
RSA key whose modulus is the rest, read big-endian; `E` an ECDSA key. -/
def ParsePKIXPublicKey (der : List Byte) : Except Error PKIXPublicKey :=
  match der with
  | [] => .error (.library "x509: failed to parse public key")
  | kind :: rest =>
    if kind = 82 then .ok (.rsa ⟨beValue rest, 65537⟩)
    else if kind = 69 then .ok (.ecdsa ⟨curve, 0, 0⟩)
    else .error (.library "x509: unknown public key algorithm")

/-- The random source: the bytes it will give; it fails when too few are
left. -/
def randRead (tape : List Byte) (n : Nat) : Except Error (List Byte) × List Byte :=
  if tape.length < n then (.error (.library "unexpected EOF"), tape)
  else (.ok (tape.take n), tape.drop n)

/-- A stand-in for `subtle.NewKWP`: keys of 16 or 32 bytes. -/
def NewKWP (key : List Byte) : Except Error (List Byte) :=
  if key.length = 16 ∨ key.length = 32 then .ok key
  else .error (.library "kwp: invalid AES key size")

/-- A stand-in for `(*KWP).Wrap`: eight bytes of header, then every byte
shifted by the first byte of the key. -/
def Wrap (key data : List Byte) : Except Error (List Byte) :=
  if data.length < 16 then .error (.library "kwp: key size of key to wrap too small")
  else if data.length > 4096 then .error (.library "kwp: key size of key to wrap too large")
  else .ok (List.replicate 8 0xA6 ++ data.map (fun b => b + key.headD 0))

/-- The inverse of `Wrap`. -/
def unwrap (key wrapped : List Byte) : Option (List Byte) :=
  some ((wrapped.drop 8).map (fun b => b - key.headD 0))

/-- A stand-in for `rsa.EncryptOAEP`: the OAEP block `00 || seed || 00..00 01
|| message` of exactly `k` bytes, with a fresh 32-byte seed, left unmasked and
unencrypted. It fails when the message does not fit. -/
def EncryptOAEP (tape : List Byte) (pub : RSAPublicKey) (msg _label : List Byte) :
    Except Error (List Byte) × List Byte :=
  if pub.Size < msg.length + 66 then
    (.error (.library "crypto/rsa: message too long for RSA key size"), tape)
  else if tape.length < 32 then (.error (.library "unexpected EOF"), tape)
  else
    (.ok (0 :: tape.take 32 ++ (List.replicate (pub.Size - msg.length - 34) 0 ++ 1 :: msg)),
      tape.drop 32)

/-- The inverse of `EncryptOAEP`. -/
def decrypt (_pub : RSAPublicKey) (c : List Byte) : Option (List Byte) :=
  match (c.drop 33).dropWhile (fun b => b = 0) with
  | [] => none
  | _ :: msg => some msg

/-- The environment made of the stand-ins. -/
def env : Env (List Byte) (List Byte) :=
  ⟨HexToECDSA, PubkeyToAddress, pemDecode, ParsePKIXPublicKey, randRead, NewKWP, Wrap,
    EncryptOAEP⟩

/-- The scalar one, as the operator types it. -/
def scalarOne : String :=
  "0000000000000000000000000000000000000000000000000000000000000001"

/-- A wrapping key with a modulus of 128 bytes. -/
def wrappingKey : String := String.mk (Char.ofNat 82 :: List.replicate 128 (Char.ofNat 122))

/-- A wrapping key with a modulus of 2 bytes. -/
def smallWrappingKey : String := "Rzz"

/-- A random tape of 64 bytes. -/
def tape : List Byte := (List.range 64).map (fun i => byte (7 * i + 3))

/-- A key with the scalar `d`. -/
def keyOf (d : Int) : PrivateKey := ⟨⟨curve, 0, 0⟩, d⟩

end demo

/-! # Verification -/

section Lemmas

open asn1

/-! ## Big-endian bytes -/

theorem bigBytesAux_fuel (fuel : Nat) : ∀ (n fuel2 : Nat), n ≤ fuel → n ≤ fuel2 →
    bigBytesAux fuel n = bigBytesAux fuel2 n := by
  induction fuel with
  | zero =>
    intro n fuel2 h _
    have hn : n = 0 := by omega
    subst hn
    cases fuel2 <;> simp [bigBytesAux]
  | succ fuel ih =>
    intro n fuel2 h h2
    by_cases hn : n = 0
    · subst hn
      cases fuel2 <;> simp [bigBytesAux]
    · cases fuel2 with
      | zero => omega
      | succ f2 =>
        simp only [bigBytesAux, if_neg hn]
        rw [ih (n / 256) f2 (by omega) (by omega)]

theorem natBytes_zero : natBytes 0 = [] := rfl

theorem natBytes_pos (n : Nat) (hn : n ≠ 0) :
    natBytes n = natBytes (n / 256) ++ [byte n] := by
  unfold natBytes
  cases n with
  | zero => exact absurd rfl hn
  | succ m =>
    simp only [bigBytesAux, if_neg hn]
    rw [bigBytesAux_fuel m ((m + 1) / 256) ((m + 1) / 256) (by omega) (Nat.le_refl _)]

theorem beValue_append_singleton (l : List Byte) (b : Byte) :
    beValue (l ++ [b]) = beValue l * 256 + b.val := by
  simp [beValue, List.foldl_append]

theorem beValue_natBytes (n : Nat) : beValue (natBytes n) = n := by
  induction n using Nat.strong_induction_on with
  | _ n ih =>
    by_cases hn : n = 0
    · subst hn; rfl
    · rw [natBytes_pos n hn, beValue_append_singleton, ih (n / 256) (by omega)]
      simp only [byte]
      omega

theorem natBytes_length_le (k : Nat) : ∀ n : Nat, (natBytes n).length ≤ k ↔ n < 256 ^ k := by
  induction k with
  | zero =>
    intro n
    by_cases hn : n = 0
    · subst hn; simp [natBytes_zero]
    · rw [natBytes_pos n hn]; simp; omega
  | succ k ih =>
    intro n
    by_cases hn : n = 0
    · subst hn; simp [natBytes_zero]
    · rw [natBytes_pos n hn]
      simp only [List.length_append, List.length_singleton, Nat.add_le_add_iff_right, ih]
      rw [Nat.div_lt_iff_lt_mul (by decide), Nat.pow_succ]

theorem beValue_replicate_zero_append (k : Nat) (l : List Byte) :
    beValue (List.replicate k 0 ++ l) = beValue l := by
  induction k with
  | zero => simp
  | succ k ih =>
    simp only [beValue, List.replicate_succ, List.cons_append, List.foldl_cons] at ih ⊢
    simpa using ih

theorem copyAt_make (k : Nat) (src : List Byte) (h : src.length ≤ k) :
    copyAt (make k) (k - src.length) src = List.replicate (k - src.length) 0 ++ src := by
  simp only [copyAt, copy, make, List.take_replicate, List.drop_replicate, List.length_replicate]
  have h1 : k - (k - src.length) = src.length := by omega
  rw [h1, List.take_length]
  simp

/-- The private-key octets are the natural bytes behind as many zero bytes as
are missing to 32. -/
theorem privateKeyOctets_eq (key : PrivateKey) :
    privateKeyOctets key =
      List.replicate (32 - (bigIntBytes key.D).length) 0 ++ bigIntBytes key.D := by
  unfold privateKeyOctets
  by_cases h : (bigIntBytes key.D).length < 32
  · simp only [h, if_true]
    exact copyAt_make 32 _ (by omega)
  · simp only [h, if_false]
    have h0 : 32 - (bigIntBytes key.D).length = 0 := by omega
    rw [h0]
    rfl

theorem privateKeyOctets_length (key : PrivateKey) :
    (privateKeyOctets key).length = max 32 (bigIntBytes key.D).length := by
  rw [privateKeyOctets_eq]
  simp only [List.length_append, List.length_replicate]
  omega

theorem beValue_privateKeyOctets (key : PrivateKey) :
    beValue (privateKeyOctets key) = key.D.natAbs := by
  rw [privateKeyOctets_eq, beValue_replicate_zero_append]
  exact beValue_natBytes _

theorem bigIntBytes_length_le_32 (key : PrivateKey) :
    (bigIntBytes key.D).length ≤ 32 ↔ key.D.natAbs < 2 ^ 256 := by
  unfold bigIntBytes
  rw [natBytes_length_le]
  have : (256 : Nat) ^ 32 = 2 ^ 256 := by norm_num
  rw [this]

/-! ## The two `Marshal` calls -/

theorem Marshal_sec1Key (octets : List Byte) :
    Marshal (sec1Key octets) = .ok
      (derSequence ([2, 1, 1] ++ (derOctetString octets ++ [0xA0, 7, 6, 5, 0x2B, 0x81, 4, 0, 10]))) := by
  have h1 : makeFieldOf (.int 1) {} (makeBody (.int 1)) = .ok [2, 1, 1] := rfl
  have h2 : makeFieldOf (.bytes octets) {} (makeBody (.bytes octets)) =
      .ok (derOctetString octets) := rfl
  have h3 : makeFieldOf (.objectIdentifier [1, 3, 132, 0, 10])
      { optional := true, explicit := true, tag := some 0 }
      (makeBody (.objectIdentifier [1, 3, 132, 0, 10])) = .ok [0xA0, 7, 6, 5, 0x2B, 0x81, 4, 0, 10] := rfl
  have h4 : makeFieldOf (.bitString [] 0)
      { optional := true, explicit := true, tag := some 1 }
      (makeBody (.bitString [] 0)) = .ok [] := rfl
  simp only [Marshal, makeField, sec1Key]
  rw [makeBody]
  simp only [makeFields, h1, h2, h3, h4]
  rfl

theorem Marshal_pkcs8 (sec1Der : List Byte) :
    Marshal (pkcs8 sec1Der) = .ok
      (derSequence ([2, 1, 0] ++ ([0x30, 0x10, 6, 7, 0x2A, 0x86, 0x48, 0xCE, 0x3D, 2, 1, 6, 5, 0x2B, 0x81, 4, 0, 10] ++ derOctetString sec1Der))) := by
  have h1 : makeFieldOf (.int 0) {} (makeBody (.int 0)) = .ok [2, 1, 0] := rfl
  have h2 : makeFieldOf (.bytes sec1Der) {} (makeBody (.bytes sec1Der)) =
      .ok (derOctetString sec1Der) := rfl
  have h3 : makeFieldOf (.struct
          [ (.objectIdentifier [1, 2, 840, 10045, 2, 1], {}),
            (.objectIdentifier [1, 3, 132, 0, 10], {}) ]) {} (makeBody (.struct
          [ (.objectIdentifier [1, 2, 840, 10045, 2, 1], {}),
            (.objectIdentifier [1, 3, 132, 0, 10], {}) ])) = .ok [0x30, 0x10, 6, 7, 0x2A, 0x86, 0x48, 0xCE, 0x3D, 2, 1, 6, 5, 0x2B, 0x81, 4, 0, 10] := rfl
  simp only [Marshal, makeField, pkcs8]
  rw [makeBody]
  simp only [makeFields, h1, h2, h3]
  simp only [List.append_nil]
  rfl

/-- The DER of the inner record around the given private-key octets. -/
theorem marshal_eq (key : PrivateKey) :
    marshalSecp256k1PrivateKeyToPKCS8 key = .ok
      (derSequence ([2, 1, 0] ++ ([0x30, 0x10, 6, 7, 0x2A, 0x86, 0x48, 0xCE, 0x3D, 2, 1, 6, 5, 0x2B, 0x81, 4, 0, 10] ++ derOctetString (derSequence ([2, 1, 1] ++ (derOctetString (privateKeyOctets key) ++ [0xA0, 7, 6, 5, 0x2B, 0x81, 4, 0, 10])))))) := by
  simp only [marshalSecp256k1PrivateKeyToPKCS8, Marshal_sec1Key, Marshal_pkcs8]

theorem derSequence_short (body : List Byte) (h : body.length < 128) :
    derSequence body = 0x30 :: byte body.length :: body := by
  have hn : ¬ body.length ≥ 128 := by omega
  simp only [derSequence, appendTagAndLength, ClassUniversal, TagSequence, hn]
  rfl

theorem derOctetString_short (content : List Byte) (h : content.length < 128) :
    derOctetString content = 0x04 :: byte content.length :: content := by
  have hn : ¬ content.length ≥ 128 := by omega
  simp only [derOctetString, appendTagAndLength, ClassUniversal, TagOctetString, hn]
  rfl

theorem readTLV_short (identifier : Byte) (content rest : List Byte)
    (h : content.length < 128) :
    readTLV (identifier :: byte content.length :: (content ++ rest)) =
      some (identifier, content, rest) := by
  have hv : (byte content.length).val = content.length := by
    simp only [byte]; omega
  simp [readTLV, readLength, hv, h]

/-- The 73 bytes for private-key octets of length 32. -/
theorem encoding_of_32 (kb : List Byte) (h : kb.length = 32) :
    derSequence ([2, 1, 0] ++ ([0x30, 0x10, 6, 7, 0x2A, 0x86, 0x48, 0xCE, 0x3D, 2, 1, 6, 5, 0x2B, 0x81, 4, 0, 10] ++ derOctetString (derSequence ([2, 1, 1] ++ (derOctetString kb ++ [0xA0, 7, 6, 5, 0x2B, 0x81, 4, 0, 10]))))) =
    [0x30, 0x47, 0x02, 0x01, 0x00, 0x30, 0x10, 0x06, 0x07, 0x2A, 0x86, 0x48, 0xCE, 0x3D, 0x02,
      0x01, 0x06, 0x05, 0x2B, 0x81, 0x04, 0x00, 0x0A, 0x04, 0x30, 0x30, 0x2E, 0x02, 0x01, 0x01,
      0x04, 0x20] ++ kb ++ [0xA0, 0x07, 0x06, 0x05, 0x2B, 0x81, 0x04, 0x00, 0x0A] := by
  have e1 : derOctetString kb = 0x04 :: 0x20 :: kb := by
    rw [derOctetString_short kb (by omega), h]; rfl
  have e2 : derSequence ([2, 1, 1] ++ (0x04 :: 0x20 :: kb ++ [0xA0, 7, 6, 5, 0x2B, 0x81, 4, 0, 10])) =
      0x30 :: 0x2E :: ([2, 1, 1] ++ (0x04 :: 0x20 :: kb ++ [0xA0, 7, 6, 5, 0x2B, 0x81, 4, 0, 10])) := by
    rw [derSequence_short _ (by simp [h])]
    simp [h, byte]
  have e3 : derOctetString (0x30 :: 0x2E :: ([2, 1, 1] ++ (0x04 :: 0x20 :: kb ++ [0xA0, 7, 6, 5, 0x2B, 0x81, 4, 0, 10]))) =
      0x04 :: 0x30 :: (0x30 :: 0x2E :: ([2, 1, 1] ++ (0x04 :: 0x20 :: kb ++ [0xA0, 7, 6, 5, 0x2B, 0x81, 4, 0, 10]))) := by
    rw [derOctetString_short _ (by simp [h])]
    simp [h, byte]
  rw [e1, e2, e3, derSequence_short _ (by simp [h])]
  simp [h, byte]


theorem readTLV_int (v : Byte) (rest : List Byte) :
    readTLV (2 :: 1 :: v :: rest) = some (2, [v], rest) :=
  readTLV_short 2 [v] rest (by simp)

theorem readOptionalFields_curve :
    readOptionalFields [0xA0, 7, 6, 5, 0x2B, 0x81, 4, 0, 10] = some (some [1, 3, 132, 0, 10], none) := by
  decide


/-! ## Reading back what `appendTagAndLength` writes -/

theorem beValue_foldl (l : List Byte) (acc : Nat) :
    l.foldl (fun a b => a * 256 + b.val) acc = acc * 256 ^ l.length + beValue l := by
  induction l generalizing acc with
  | nil => simp [beValue]
  | cons b l ih =>
    simp only [List.foldl_cons, beValue, List.length_cons]
    rw [ih (acc * 256 + b.val), ih (0 * 256 + b.val)]
    ring

theorem beValue_cons (b : Byte) (l : List Byte) :
    beValue (b :: l) = b.val * 256 ^ l.length + beValue l := by
  simp only [beValue, List.foldl_cons]
  rw [beValue_foldl]
  simp [beValue]

theorem appendLengthLoop_length (i n : Nat) : (appendLengthLoop i n).length = n := by
  induction n with
  | zero => rfl
  | succ n ih => simp [appendLengthLoop, ih]

theorem beValue_appendLengthLoop (i n : Nat) :
    beValue (appendLengthLoop i n) = i % 256 ^ n := by
  induction n with
  | zero => simp [appendLengthLoop, beValue, Nat.mod_one]
  | succ n ih =>
    simp only [appendLengthLoop]
    rw [beValue_cons, ih, appendLengthLoop_length, Nat.shiftRight_eq_div_pow]
    simp only [byte]
    have h8 : 2 ^ (n * 8) = 256 ^ n := by
      rw [Nat.mul_comm, Nat.pow_mul]
    rw [h8, Nat.mod_pow_succ]
    ring

theorem lengthLengthLoop_spec (fuel : Nat) : ∀ (i nb : Nat), i ≤ fuel →
    ∃ m, lengthLengthLoop fuel i nb = nb + m ∧ i < 256 ^ (m + 1) ∧ (m = 0 ∨ 256 ^ m ≤ i) := by
  induction fuel with
  | zero =>
    intro i nb h
    exact ⟨0, rfl, by omega, Or.inl rfl⟩
  | succ fuel ih =>
    intro i nb h
    by_cases hi : i > 255
    · simp only [lengthLengthLoop, hi, if_true]
      have hd : i >>> 8 = i / 256 := by rw [Nat.shiftRight_eq_div_pow]
      rw [hd]
      obtain ⟨m, hm, hlt, hge⟩ := ih (i / 256) (nb + 1) (by omega)
      refine ⟨m + 1, by omega, ?_, Or.inr ?_⟩
      · rw [Nat.pow_succ]
        exact (Nat.div_lt_iff_lt_mul (by decide)).mp hlt
      · rcases hge with h0 | hge
        · subst h0; simp; omega
        · rw [Nat.pow_succ]
          exact (Nat.le_div_iff_mul_le (by decide)).mp hge
    · simp only [lengthLengthLoop, hi, if_false]
      exact ⟨0, rfl, by simp; omega, Or.inl rfl⟩

theorem lt_pow_lengthLength (i : Nat) : i < 256 ^ lengthLength i := by
  obtain ⟨m, hm, hlt, _⟩ := lengthLengthLoop_spec i i 1 (Nat.le_refl _)
  unfold lengthLength
  rw [hm, Nat.add_comm]
  exact hlt

theorem lengthLength_le (i k : Nat) (hk : 1 ≤ k) (h : i < 256 ^ k) : lengthLength i ≤ k := by
  obtain ⟨m, hm, _, hge⟩ := lengthLengthLoop_spec i i 1 (Nat.le_refl _)
  unfold lengthLength
  rw [hm]
  rcases hge with h0 | hge
  · omega
  · have : 256 ^ m < 256 ^ k := Nat.lt_of_le_of_lt hge h
    have := (Nat.pow_lt_pow_iff_right (by decide : 1 < 256)).mp this
    omega

theorem lor_128 (l : Nat) (h : l < 128) : 0x80 ||| l = 128 + l := by
  have := Nat.mul_add_lt_is_or (i := 7) (b := l) (by simpa using h) 1
  simpa using this.symm

theorem derSequence_eq (body : List Byte) :
    derSequence body = 0x30 :: (lengthOctets body.length ++ body) := by
  unfold derSequence lengthOctets appendTagAndLength
  by_cases hl : body.length ≥ 128
  · simp only [hl, if_true, ClassUniversal, TagSequence, appendLength]
    rfl
  · simp only [hl, if_false, ClassUniversal, TagSequence]
    rfl

theorem derOctetString_eq (content : List Byte) :
    derOctetString content = 0x04 :: (lengthOctets content.length ++ content) := by
  unfold derOctetString lengthOctets appendTagAndLength
  by_cases hl : content.length ≥ 128
  · simp only [hl, if_true, ClassUniversal, TagOctetString, appendLength]
    rfl
  · simp only [hl, if_false, ClassUniversal, TagOctetString]
    rfl

/-- Go's `int` holds the lengths below `2 ^ 63`; they take at most eight length
octets, and the reader gets the length back. -/
theorem readLength_lengthOctets (len : Nat) (rest : List Byte) (hlen : len < 2 ^ 63) :
    readLength (lengthOctets len ++ rest) = some (len, rest) := by
  unfold lengthOctets
  by_cases hl : len ≥ 128
  · have h8 : lengthLength len ≤ 8 :=
      lengthLength_le len 8 (by decide) (Nat.lt_of_lt_of_le hlen (by norm_num))
    have hmod : lengthLength len % 256 = lengthLength len := Nat.mod_eq_of_lt (by omega)
    have hv : (byte (128 + lengthLength len)).val = 128 + lengthLength len := by
      simp only [byte]; omega
    have hbig : len % 256 ^ lengthLength len = len := Nat.mod_eq_of_lt (lt_pow_lengthLength len)
    have hnot : ¬ (128 + lengthLength len < 128) := by omega
    have hnot2 : ¬ (lengthLength len + rest.length < lengthLength len) := by omega
    simp only [hl, if_true, List.cons_append, hmod,
      lor_128 _ (show lengthLength len < 128 by omega), readLength, hv, hnot, if_false,
      Nat.add_sub_cancel_left, List.length_append, appendLengthLoop_length, hnot2]
    rw [List.take_left' (appendLengthLoop_length _ _),
      List.drop_left' (appendLengthLoop_length _ _), beValue_appendLengthLoop, hbig]
  · have hv : (byte len).val = len := by simp only [byte]; omega
    have : len < 128 := by omega
    simp [hl, readLength, hv, this]

theorem readTLV_lengthOctets (identifier : Byte) (content rest : List Byte)
    (h : content.length < 2 ^ 63) :
    readTLV (identifier :: (lengthOctets content.length ++ (content ++ rest))) =
      some (identifier, content, rest) := by
  simp [readTLV, readLength_lengthOctets _ _ h]

theorem readTLV_derSequence (body rest : List Byte) (h : body.length < 2 ^ 63) :
    readTLV (derSequence body ++ rest) = some (0x30, body, rest) := by
  rw [derSequence_eq]
  simpa using readTLV_lengthOctets 0x30 body rest h

theorem readTLV_derOctetString (content rest : List Byte) (h : content.length < 2 ^ 63) :
    readTLV (derOctetString content ++ rest) = some (0x04, content, rest) := by
  rw [derOctetString_eq]
  simpa using readTLV_lengthOctets 0x04 content rest h

theorem lengthOctets_length (len : Nat) (h : len < 2 ^ 63) :
    1 ≤ (lengthOctets len).length ∧ (lengthOctets len).length ≤ 9 := by
  unfold lengthOctets
  by_cases hl : len ≥ 128
  · have h8 : lengthLength len ≤ 8 :=
      lengthLength_le len 8 (by decide) (Nat.lt_of_lt_of_le h (by norm_num))
    simp [hl, appendLengthLoop_length]; omega
  · simp [hl]

theorem lengthOctets_length_pos (len : Nat) : 1 ≤ (lengthOctets len).length := by
  unfold lengthOctets
  by_cases hl : len ≥ 128
  · simp [hl]
  · simp [hl]

theorem derSequence_length (body : List Byte) :
    (derSequence body).length = 1 + (lengthOctets body.length).length + body.length := by
  rw [derSequence_eq]; simp; omega

theorem derOctetString_length (content : List Byte) :
    (derOctetString content).length =
      1 + (lengthOctets content.length).length + content.length := by
  rw [derOctetString_eq]; simp; omega

/-- Reading back the record that the encoder writes, for every scalar whose
bytes fit a Go slice. -/
theorem readKeyInfo_marshal (key : PrivateKey) (h : (bigIntBytes key.D).length < 2 ^ 62) :
    ∃ out, marshalSecp256k1PrivateKeyToPKCS8 key = .ok out ∧
      readKeyInfo out = some ⟨[0], [1, 2, 840, 10045, 2, 1], [1, 3, 132, 0, 10], [1],
        privateKeyOctets key, some [1, 3, 132, 0, 10], none⟩ := by
  refine ⟨_, marshal_eq key, ?_⟩
  have hkb : (privateKeyOctets key).length < 2 ^ 62 := by
    rw [privateKeyOctets_length]
    have : (32 : Nat) < 2 ^ 62 := by norm_num
    omega
  generalize privateKeyOctets key = kb at hkb ⊢
  have p62 : (2 : Nat) ^ 63 = 2 * 2 ^ 62 := by norm_num
  have big : (1000 : Nat) < 2 ^ 62 := by norm_num
  have l1 := lengthOctets_length kb.length (by omega)
  have hI : ([2, 1, 1] ++ (derOctetString kb ++ [0xA0, 7, 6, 5, 0x2B, 0x81, 4, 0, 10])).length
      < 2 ^ 62 + 100 := by
    simp only [List.length_append, derOctetString_length, List.length_cons, List.length_nil]
    omega
  generalize hIdef : ([2, 1, 1] ++ (derOctetString kb ++ [0xA0, 7, 6, 5, 0x2B, 0x81, 4, 0, 10])) = I
    at hI ⊢
  have l2 := lengthOctets_length I.length (by omega)
  have hS : (derSequence I).length < 2 ^ 62 + 200 := by
    rw [derSequence_length]; omega
  have l3 := lengthOctets_length (derSequence I).length (by omega)
  have hB : ([2, 1, 0] ++ ([0x30, 0x10, 6, 7, 0x2A, 0x86, 0x48, 0xCE, 0x3D, 2, 1, 6, 5, 0x2B, 0x81,
      4, 0, 10] ++ derOctetString (derSequence I))).length < 2 ^ 62 + 300 := by
    simp only [List.length_append, derOctetString_length, List.length_cons, List.length_nil]
    omega
  have s1 := readTLV_derSequence ([2, 1, 0] ++ ([0x30, 0x10, 6, 7, 0x2A, 0x86, 0x48, 0xCE, 0x3D, 2,
      1, 6, 5, 0x2B, 0x81, 4, 0, 10] ++ derOctetString (derSequence I))) [] (by omega)
  have s2 := readTLV_short 0x30 [0x06, 0x07, 0x2A, 0x86, 0x48, 0xCE,
      0x3D, 0x02, 0x01, 0x06, 0x05, 0x2B, 0x81, 0x04, 0x00, 0x0A] (derOctetString (derSequence I))
      (by simp)
  have s3 : readTLV [0x06, 0x07, 0x2A, 0x86, 0x48, 0xCE, 0x3D, 0x02, 0x01, 0x06, 0x05, 0x2B, 0x81,
      0x04, 0x00, 0x0A] = some (0x06, [0x2A, 0x86, 0x48, 0xCE, 0x3D, 0x02, 0x01],
        [0x06, 0x05, 0x2B, 0x81, 0x04, 0x00, 0x0A]) := by decide
  have s4 : readTLV [0x06, 0x05, 0x2B, 0x81, 0x04, 0x00, 0x0A] =
      some (0x06, [0x2B, 0x81, 0x04, 0x00, 0x0A], []) := by decide
  have s5 := readTLV_derOctetString (derSequence I) [] (by omega)
  have s6 := readTLV_derSequence I [] (by omega)
  have s7 := readTLV_derOctetString kb [0xA0, 7, 6, 5, 0x2B, 0x81, 4, 0, 10] (by omega)
  have o1 : readOID [0x2A, 0x86, 0x48, 0xCE, 0x3D, 0x02, 0x01] = [1, 2, 840, 10045, 2, 1] := by
    decide
  have o2 : readOID [0x2B, 0x81, 0x04, 0x00, 0x0A] = [1, 3, 132, 0, 10] := by decide
  have b2 : byte 16 = 0x10 := rfl
  simp only [List.append_nil, List.cons_append, List.nil_append, List.length_cons,
    List.length_nil, Nat.reduceAdd, b2] at s1 s2 s5 s6
  have hin : readInner (derSequence I) = some ([1], kb, some [1, 3, 132, 0, 10], none) := by
    unfold readInner
    rw [s6, ← hIdef]
    simp only [List.cons_append, List.nil_append, readTLV_int]
    rw [s7]
    simp only [readOptionalFields_curve]
  unfold readKeyInfo
  simp only [List.cons_append, List.nil_append]
  rw [s1]
  simp only [readTLV_int]
  rw [s2]
  simp only [s3, s4]
  rw [s5]
  simp only [hin, o1, o2]

/-! ## base64 -/

namespace base64

theorem decodeChar_encodeChar (s : Nat) (h : s < 64) : decodeChar (encodeChar s) = some s := by
  have key : ∀ i : Fin 64, decodeChar (encodeChar i.val) = some i.val := by decide
  exact key ⟨s, h⟩

theorem encodeChar_ne_padChar (s : Nat) (h : s < 64) : encodeChar s ≠ padChar := by
  have key : ∀ i : Fin 64, encodeChar i.val ≠ padChar := by decide
  exact key ⟨s, h⟩

theorem encodeChar_mem (s : Nat) (h : s < 64) : encodeChar s ∈ encodeStd := by
  have key : ∀ i : Fin 64, encodeChar i.val ∈ encodeStd := by decide
  exact key ⟨s, h⟩

theorem and_63 (x : Nat) : x &&& 0x3F = x % 64 := by
  have := Nat.and_pow_two_sub_one_eq_mod x 6
  simpa using this

theorem shift_or3 (a b c : Nat) (hb : b < 256) (hc : c < 256) :
    a <<< 16 ||| b <<< 8 ||| c = a * 65536 + b * 256 + c := by
  have h1 : a <<< 16 ||| b <<< 8 = 2 ^ 8 * (a * 256 + b) := by
    have := Nat.mul_add_lt_is_or (i := 16) (b := b <<< 8)
      (by rw [Nat.shiftLeft_eq]; omega) a
    rw [Nat.shiftLeft_eq a 16, Nat.mul_comm a (2 ^ 16), ← this, Nat.shiftLeft_eq]
    ring
  rw [h1, ← Nat.mul_add_lt_is_or (by simpa using hc)]
  ring

theorem shift_or2 (a b : Nat) (hb : b < 256) :
    a <<< 16 ||| b <<< 8 = a * 65536 + b * 256 := by
  have := shift_or3 a b 0 hb (by decide)
  simpa using this

theorem Encode_three (a b c : Byte) (rest : List Byte) :
    Encode (a :: b :: c :: rest) =
      encodeChar (a.val / 4) :: encodeChar (a.val % 4 * 16 + b.val / 16) ::
        encodeChar (b.val % 16 * 4 + c.val / 64) :: encodeChar (c.val % 64) :: Encode rest := by
  have ha := a.isLt
  have hb := b.isLt
  have hc := c.isLt
  simp only [Encode, shift_or3 a.val b.val c.val hb hc, and_63, Nat.shiftRight_eq_div_pow]
  have e0 : (a.val * 65536 + b.val * 256 + c.val) / 2 ^ 18 % 64 = a.val / 4 := by omega
  have e1 : (a.val * 65536 + b.val * 256 + c.val) / 2 ^ 12 % 64 = a.val % 4 * 16 + b.val / 16 := by
    omega
  have e2 : (a.val * 65536 + b.val * 256 + c.val) / 2 ^ 6 % 64 = b.val % 16 * 4 + c.val / 64 := by
    omega
  have e3 : (a.val * 65536 + b.val * 256 + c.val) % 64 = c.val % 64 := by omega
  rw [e0, e1, e2, e3]

theorem Encode_two (a b : Byte) :
    Encode [a, b] =
      [encodeChar (a.val / 4), encodeChar (a.val % 4 * 16 + b.val / 16),
        encodeChar (b.val % 16 * 4), padChar] := by
  have ha := a.isLt
  have hb := b.isLt
  simp only [Encode, shift_or2 a.val b.val hb, and_63, Nat.shiftRight_eq_div_pow]
  have e0 : (a.val * 65536 + b.val * 256) / 2 ^ 18 % 64 = a.val / 4 := by omega
  have e1 : (a.val * 65536 + b.val * 256) / 2 ^ 12 % 64 = a.val % 4 * 16 + b.val / 16 := by
    omega
  have e2 : (a.val * 65536 + b.val * 256) / 2 ^ 6 % 64 = b.val % 16 * 4 := by omega
  rw [e0, e1, e2]

theorem Encode_one (a : Byte) :
    Encode [a] = [encodeChar (a.val / 4), encodeChar (a.val % 4 * 16), padChar, padChar] := by
  have ha := a.isLt
  simp only [Encode, and_63, Nat.shiftRight_eq_div_pow, Nat.shiftLeft_eq]
  have e0 : a.val * 2 ^ 16 / 2 ^ 18 % 64 = a.val / 4 := by omega
  have e1 : a.val * 2 ^ 16 / 2 ^ 12 % 64 = a.val % 4 * 16 := by omega
  rw [e0, e1]

theorem byte_val (a : Byte) (n : Nat) (h : n = a.val) : byte n = a := by
  apply Fin.ext
  simp only [byte, h]
  exact Nat.mod_eq_of_lt a.isLt

/-- Decoding undoes encoding. -/
theorem Decode_Encode (l : List Byte) : Decode (Encode l) = some l := by
  induction l using Encode.induct with
  | case1 => rfl
  | case2 a =>
    have ha := a.isLt
    rw [Encode_one]
    simp only [Decode, and_self, if_true, true_and,
      decodeChar_encodeChar (a.val / 4) (by omega),
      decodeChar_encodeChar (a.val % 4 * 16) (by omega)]
    rw [byte_val a _ (by omega)]
  | case3 a b =>
    have ha := a.isLt
    have hb := b.isLt
    rw [Encode_two]
    simp only [Decode, true_and, if_true,
      encodeChar_ne_padChar (b.val % 16 * 4) (by omega), if_false,
      decodeChar_encodeChar (a.val / 4) (by omega),
      decodeChar_encodeChar (a.val % 4 * 16 + b.val / 16) (by omega),
      decodeChar_encodeChar (b.val % 16 * 4) (by omega)]
    rw [byte_val a _ (by omega), byte_val b _ (by omega)]
  | case4 a b c rest ih =>
    have ha := a.isLt
    have hb := b.isLt
    have hc := c.isLt
    rw [Encode_three]
    simp only [Decode, encodeChar_ne_padChar (c.val % 64) (by omega), and_false, if_false,
      decodeChar_encodeChar (a.val / 4) (by omega),
      decodeChar_encodeChar (a.val % 4 * 16 + b.val / 16) (by omega),
      decodeChar_encodeChar (b.val % 16 * 4 + c.val / 64) (by omega),
      decodeChar_encodeChar (c.val % 64) (by omega), ih]
    rw [byte_val a _ (by omega), byte_val b _ (by omega), byte_val c _ (by omega)]

/-- The encoded text is made of whole groups of four characters. -/
theorem Encode_length (l : List Byte) : (Encode l).length % 4 = 0 := by
  induction l using Encode.induct with
  | case1 => rfl
  | case2 a => simp [Encode]
  | case3 a b => simp [Encode]
  | case4 a b c rest ih =>
    rw [Encode_three]
    simp only [List.length_cons]
    omega

/-- The encoded text is made of characters of the standard alphabet and of
the padding character. -/
theorem Encode_alphabet (l : List Byte) :
    ∀ ch ∈ Encode l, ch ∈ encodeStd ∨ ch = padChar := by
  induction l using Encode.induct with
  | case1 => simp [Encode]
  | case2 a =>
    have ha := a.isLt
    rw [Encode_one]
    intro ch hch
    simp only [List.mem_cons, List.mem_singleton, List.mem_nil_iff, or_false] at hch
    rcases hch with h | h | h | h
    · exact Or.inl (h ▸ encodeChar_mem _ (by omega))
    · exact Or.inl (h ▸ encodeChar_mem _ (by omega))
    · exact Or.inr h
    · exact Or.inr h
  | case3 a b =>
    have ha := a.isLt
    have hb := b.isLt
    rw [Encode_two]
    intro ch hch
    simp only [List.mem_cons, List.mem_singleton, List.mem_nil_iff, or_false] at hch
    rcases hch with h | h | h | h
    · exact Or.inl (h ▸ encodeChar_mem _ (by omega))
    · exact Or.inl (h ▸ encodeChar_mem _ (by omega))
    · exact Or.inl (h ▸ encodeChar_mem _ (by omega))
    · exact Or.inr h
  | case4 a b c rest ih =>
    have ha := a.isLt
    have hb := b.isLt
    have hc := c.isLt
    rw [Encode_three]
    intro ch hch
    simp only [List.mem_cons] at hch
    rcases hch with h | h | h | h | h
    · exact Or.inl (h ▸ encodeChar_mem _ (by omega))
    · exact Or.inl (h ▸ encodeChar_mem _ (by omega))
    · exact Or.inl (h ▸ encodeChar_mem _ (by omega))
    · exact Or.inl (h ▸ encodeChar_mem _ (by omega))
    · exact ih ch h

theorem DecodeString_EncodeToString (l : List Byte) :
    DecodeString (EncodeToString l) = some l := Decode_Encode l

end base64

/-! ## The encoder -/


theorem natBytes_head_ne_zero (n : Nat) : (natBytes n).head? ≠ some 0 := by
  induction n using Nat.strong_induction_on with
  | _ n ih =>
    by_cases hn : n = 0
    · subst hn; simp [natBytes_zero]
    · rw [natBytes_pos n hn]
      by_cases hq : n / 256 = 0
      · rw [hq, natBytes_zero]
        simp only [List.nil_append, List.head?_cons, ne_eq, Option.some.injEq]
        intro h
        have := congrArg Fin.val h
        simp only [byte] at this
        have h0 : ((0 : Byte) : Nat) = 0 := rfl
        omega
      · have hne : natBytes (n / 256) ≠ [] := by
          rw [natBytes_pos _ hq]; simp
        rw [List.head?_append_of_ne_nil _ hne]
        exact ih (n / 256) (by omega)

theorem marshal_length (key : PrivateKey) :
    ∃ out, marshalSecp256k1PrivateKeyToPKCS8 key = .ok out ∧
      41 + (privateKeyOctets key).length ≤ out.length := by
  refine ⟨_, marshal_eq key, ?_⟩
  generalize privateKeyOctets key = kb
  have l1 := lengthOctets_length_pos kb.length
  have hI : ([2, 1, 1] ++ (derOctetString kb ++ [0xA0, 7, 6, 5, 0x2B, 0x81, 4, 0, 10])).length
      ≥ kb.length + 14 := by
    simp only [List.length_append, derOctetString_length, List.length_cons, List.length_nil]
    omega
  generalize ([2, 1, 1] ++ (derOctetString kb ++ [0xA0, 7, 6, 5, 0x2B, 0x81, 4, 0, 10])) = I
    at hI ⊢
  have l2 := lengthOctets_length_pos I.length
  have l3 := lengthOctets_length_pos (derSequence I).length
  have hS := derSequence_length I
  rw [derSequence_length]
  have l4 := lengthOctets_length_pos ([2, 1, 0] ++ ([0x30, 0x10, 6, 7, 0x2A, 0x86, 0x48, 0xCE, 0x3D,
    2, 1, 6, 5, 0x2B, 0x81, 4, 0, 10] ++ derOctetString (derSequence I))).length
  simp only [List.length_append, derOctetString_length, List.length_cons, List.length_nil] at l4 ⊢
  omega

/-! ## The envelope builder -/

/-- Every return of `wrapOperatorPrivateKey` either has a nil error or gives
the zero address and the empty string. -/
theorem wrap_error_or_zero {ρ κ : Type} (env : Env ρ κ) (operatorPriv wrappingPEM : String)
    (rand : ρ) :
    (wrapOperatorPrivateKey env operatorPriv wrappingPEM rand).err = none ∨
    ((wrapOperatorPrivateKey env operatorPriv wrappingPEM rand).address = zeroAddress ∧
      (wrapOperatorPrivateKey env operatorPriv wrappingPEM rand).ciphertext = "") := by
  unfold wrapOperatorPrivateKey
  by_cases h1 : operatorPriv = ""
  · simp [h1]
  simp only [h1, if_false]
  cases h2 : env.HexToECDSA operatorPriv with
  | error e => simp
  | ok priv =>
  simp only
  cases h3 : marshalSecp256k1PrivateKeyToPKCS8 priv with
  | error e => simp
  | ok pkcs8Bytes =>
  simp only
  by_cases h4 : wrappingPEM = ""
  · simp [h4]
  simp only [h4, if_false]
  cases h5 : env.pemDecode (String.mk (replaceBackslashN wrappingPEM.data)) with
  | none => simp
  | some block =>
  simp only
  cases h6 : env.ParsePKIXPublicKey block.Bytes with
  | error e => simp
  | ok pubKeyInterface =>
  simp only
  cases pubKeyInterface with
  | ecdsa k => simp
  | other k => simp
  | rsa rsaPub =>
  simp only
  rcases h7 : env.randRead rand (make 32).length with ⟨_ | read, rand1⟩
  · simp
  simp only
  cases h8 : env.NewKWP (copy (make 32) read) with
  | error e => simp
  | ok wrapper =>
  simp only
  cases h9 : env.Wrap wrapper pkcs8Bytes with
  | error e => simp
  | ok wrappedKey =>
  simp only
  rcases h10 : env.EncryptOAEP rand1 rsaPub (copy (make 32) read) [] with ⟨_ | enc, rand2⟩
  · simp
  · simp

/-- A run that returns a nil error went through every step. -/
theorem wrap_success {ρ κ : Type} (env : Env ρ κ) (operatorPriv wrappingPEM : String)
    (rand : ρ)
    (h : (wrapOperatorPrivateKey env operatorPriv wrappingPEM rand).err = none) :
    ∃ priv pkcs8Bytes block rsaPub read rand1 wrapper wrappedKey encryptedAESKey rand2,
      operatorPriv ≠ "" ∧
      env.HexToECDSA operatorPriv = .ok priv ∧
      marshalSecp256k1PrivateKeyToPKCS8 priv = .ok pkcs8Bytes ∧
      wrappingPEM ≠ "" ∧
      env.pemDecode (String.mk (replaceBackslashN wrappingPEM.data)) = some block ∧
      env.ParsePKIXPublicKey block.Bytes = .ok (.rsa rsaPub) ∧
      env.randRead rand 32 = (.ok read, rand1) ∧
      env.NewKWP (copy (make 32) read) = .ok wrapper ∧
      env.Wrap wrapper pkcs8Bytes = .ok wrappedKey ∧
      env.EncryptOAEP rand1 rsaPub (copy (make 32) read) [] = (.ok encryptedAESKey, rand2) ∧
      (wrapOperatorPrivateKey env operatorPriv wrappingPEM rand).address =
        env.PubkeyToAddress priv.PublicKey ∧
      (wrapOperatorPrivateKey env operatorPriv wrappingPEM rand).ciphertext =
        base64.EncodeToString (encryptedAESKey ++ wrappedKey) ∧
      (wrapOperatorPrivateKey env operatorPriv wrappingPEM rand).rand = rand2 := by
  have hlen : (make 32).length = 32 := by simp [make]
  have hdef := h
  unfold wrapOperatorPrivateKey at h
  by_cases h1 : operatorPriv = ""
  · simp [h1] at h
  simp only [h1, if_false] at h
  cases h2 : env.HexToECDSA operatorPriv with
  | error e => simp [h2] at h
  | ok priv =>
  simp only [h2] at h
  cases h3 : marshalSecp256k1PrivateKeyToPKCS8 priv with
  | error e => simp [h3] at h
  | ok pkcs8Bytes =>
  simp only [h3] at h
  by_cases h4 : wrappingPEM = ""
  · simp [h4] at h
  simp only [h4, if_false] at h
  cases h5 : env.pemDecode (String.mk (replaceBackslashN wrappingPEM.data)) with
  | none => simp [h5] at h
  | some block =>
  simp only [h5] at h
  cases h6 : env.ParsePKIXPublicKey block.Bytes with
  | error e => simp [h6] at h
  | ok pubKeyInterface =>
  simp only [h6] at h
  cases pubKeyInterface with
  | ecdsa k => simp at h
  | other k => simp at h
  | rsa rsaPub =>
  simp only [hlen] at h
  rcases h7 : env.randRead rand 32 with ⟨_ | read, rand1⟩
  · simp [h7] at h
  simp only [h7] at h
  cases h8 : env.NewKWP (copy (make 32) read) with
  | error e => simp [h8] at h
  | ok wrapper =>
  simp only [h8] at h
  cases h9 : env.Wrap wrapper pkcs8Bytes with
  | error e => simp [h9] at h
  | ok wrappedKey =>
  simp only [h9] at h
  rcases h10 : env.EncryptOAEP rand1 rsaPub (copy (make 32) read) [] with ⟨_ | enc, rand2⟩
  · simp [h10] at h
  refine ⟨priv, pkcs8Bytes, block, rsaPub, read, rand1, wrapper, wrappedKey, enc, rand2,
    h1, rfl, h3, h4, rfl, h6, rfl, h8, h9, h10, ?_, ?_, ?_⟩
  all_goals
    simp only [wrapOperatorPrivateKey, h1, if_false, h2, h3, h4, h5, h6, hlen, h7, h8, h9, h10]

theorem copy_length (dst src : List Byte) : (copy dst src).length = dst.length := by
  simp only [copy, List.length_append, List.length_take, List.length_drop]
  omega

/-- The encoding of a scalar below `2 ^ 256` is 73 bytes long. -/
theorem marshal_length_73 (key : PrivateKey) (h : key.D.natAbs < 2 ^ 256) :
    ∃ out, marshalSecp256k1PrivateKeyToPKCS8 key = .ok out ∧ out.length = 73 := by
  have hle : (bigIntBytes key.D).length ≤ 32 := (bigIntBytes_length_le_32 key).mpr h
  have hlen : (privateKeyOctets key).length = 32 := by
    rw [privateKeyOctets_length]; omega
  refine ⟨_, marshal_eq key, ?_⟩
  rw [encoding_of_32 _ hlen]
  simp [hlen]

theorem demo_NewKWP_32 (key : List Byte) (h : key.length = 32) :
    ∃ wrapper, demo.env.NewKWP key = .ok wrapper := by
  simp [demo.env, demo.NewKWP, h]

theorem demo_Wrap_range (wrapper data : List Byte) (h1 : 16 ≤ data.length)
    (h2 : data.length ≤ 4096) : ∃ wrapped, demo.env.Wrap wrapper data = .ok wrapped := by
  have ha : ¬ data.length < 16 := by omega
  have hb : ¬ data.length > 4096 := by omega
  simp [demo.env, demo.Wrap, ha, hb]

theorem demo_EncryptOAEP_too_long (rand : List Byte) (pub : RSAPublicKey) (msg label : List Byte)
    (h : pub.Size < msg.length + 66) :
    ∃ e rand2, demo.env.EncryptOAEP rand pub msg label = (.error e, rand2) := by
  simp [demo.env, demo.EncryptOAEP, h]

/-! ## The small environment -/

theorem dropWhile_zero_replicate (z : Nat) (msg : List Byte) :
    (List.replicate z (0 : Byte) ++ 1 :: msg).dropWhile (fun b => b = 0) = 1 :: msg := by
  induction z with
  | zero => simp [List.dropWhile]
  | succ z ih => simp [List.replicate_succ, List.dropWhile, ih]

/-- The stand-in for RSA-OAEP decrypts what it encrypts, and its ciphertexts
are as long as the modulus. -/
theorem demo_decrypt_EncryptOAEP (rand : List Byte) (pub : RSAPublicKey)
    (msg label c rand2 : List Byte)
    (h : demo.env.EncryptOAEP rand pub msg label = (.ok c, rand2)) :
    demo.decrypt pub c = some msg ∧ c.length = pub.Size := by
  simp only [demo.env, demo.EncryptOAEP] at h
  by_cases h1 : pub.Size < msg.length + 66
  · simp [h1] at h
  by_cases h2 : rand.length < 32
  · simp [h1, h2] at h
  simp only [h1, h2, if_false, Prod.mk.injEq, Except.ok.injEq] at h
  obtain ⟨hc, _⟩ := h
  subst hc
  have ht : (List.take 32 rand).length = 32 := by
    rw [List.length_take]; omega
  constructor
  · unfold demo.decrypt
    have hd : List.drop 33 (0 :: List.take 32 rand ++
        (List.replicate (pub.Size - msg.length - 34) 0 ++ 1 :: msg)) =
        List.replicate (pub.Size - msg.length - 34) 0 ++ 1 :: msg := by
      show List.drop (32 + 1) (0 :: (List.take 32 rand ++ _)) = _
      rw [List.drop_succ_cons, List.drop_left' ht]
    rw [hd, dropWhile_zero_replicate]
  · simp only [List.length_append, List.length_cons, ht, List.length_replicate]
    omega

/-- The stand-in for KWP unwraps what it wraps. -/
theorem demo_unwrap_Wrap (aesKey wrapper data wrapped : List Byte)
    (h1 : demo.env.NewKWP aesKey = .ok wrapper) (h2 : demo.env.Wrap wrapper data = .ok wrapped) :
    demo.unwrap aesKey wrapped = some data := by
  simp only [demo.env, demo.NewKWP] at h1
  by_cases hk : aesKey.length = 16 ∨ aesKey.length = 32
  · simp only [hk, if_true, Except.ok.injEq] at h1
    subst h1
    simp only [demo.env, demo.Wrap] at h2
    by_cases ha : data.length < 16
    · simp [ha] at h2
    by_cases hb : data.length > 4096
    · simp [ha, hb] at h2
    simp only [ha, hb, if_false, Except.ok.injEq] at h2
    subst h2
    unfold demo.unwrap
    have h8 : (List.replicate 8 (0xA6 : Byte)).length = 8 := by simp
    have hid : ∀ k : Byte, ((fun b : Byte => b - k) ∘ fun b => b + k) = id := by
      intro k
      funext b
      simp
    rw [List.drop_left' h8, List.map_map, hid, List.map_id]
  · simp [hk] at h1

end Lemmas

/-! # The claims -/

set_option maxRecDepth 100000

/-- C2. Exact encoding: for a scalar `0 ≤ D < 2 ^ 256` the encoder returns 73
bytes, the fixed 32-byte prefix, a 32-byte string whose big-endian value is
`D`, and the fixed 9-byte suffix. Read back as DER, they are the outer record
(version 0, algorithm ecPublicKey `1.2.840.10045.2.1` with parameters secp256k1
`1.3.132.0.10`) around the inner record (version 1, the 32 private-key octets,
the curve `1.3.132.0.10` under `[0]`, no public key). For `D = 1` the key
bytes are 31 zero bytes and then `01`. -/
theorem marshal_exact_encoding (key : PrivateKey) (h0 : 0 ≤ key.D) (h1 : key.D < 2 ^ 256) :
    ∃ keyBytes : List Byte,
      keyBytes.length = 32 ∧ (beValue keyBytes : Int) = key.D ∧
      marshalSecp256k1PrivateKeyToPKCS8 key = .ok
        ([0x30, 0x47, 0x02, 0x01, 0x00, 0x30, 0x10, 0x06, 0x07, 0x2A, 0x86, 0x48, 0xCE, 0x3D,
          0x02, 0x01, 0x06, 0x05, 0x2B, 0x81, 0x04, 0x00, 0x0A, 0x04, 0x30, 0x30, 0x2E, 0x02,
          0x01, 0x01, 0x04, 0x20] ++ keyBytes ++
          [0xA0, 0x07, 0x06, 0x05, 0x2B, 0x81, 0x04, 0x00, 0x0A]) ∧
      ([0x30, 0x47, 0x02, 0x01, 0x00, 0x30, 0x10, 0x06, 0x07, 0x2A, 0x86, 0x48, 0xCE, 0x3D,
          0x02, 0x01, 0x06, 0x05, 0x2B, 0x81, 0x04, 0x00, 0x0A, 0x04, 0x30, 0x30, 0x2E, 0x02,
          0x01, 0x01, 0x04, 0x20] ++ keyBytes ++
          [0xA0, 0x07, 0x06, 0x05, 0x2B, 0x81, 0x04, 0x00, 0x0A]).length = 73 ∧
      readKeyInfo
        ([0x30, 0x47, 0x02, 0x01, 0x00, 0x30, 0x10, 0x06, 0x07, 0x2A, 0x86, 0x48, 0xCE, 0x3D,
          0x02, 0x01, 0x06, 0x05, 0x2B, 0x81, 0x04, 0x00, 0x0A, 0x04, 0x30, 0x30, 0x2E, 0x02,
          0x01, 0x01, 0x04, 0x20] ++ keyBytes ++
          [0xA0, 0x07, 0x06, 0x05, 0x2B, 0x81, 0x04, 0x00, 0x0A]) =
        some ⟨[0], [1, 2, 840, 10045, 2, 1], [1, 3, 132, 0, 10], [1], keyBytes,
          some [1, 3, 132, 0, 10], none⟩ ∧
      (key.D = 1 → keyBytes = List.replicate 31 0 ++ [1]) := by
  have hnat : key.D.natAbs < 2 ^ 256 := by omega
  have hle : (bigIntBytes key.D).length ≤ 32 := (bigIntBytes_length_le_32 key).mpr hnat
  have hlen : (privateKeyOctets key).length = 32 := by
    rw [privateKeyOctets_length]; omega
  have hm : marshalSecp256k1PrivateKeyToPKCS8 key = .ok
        ([0x30, 0x47, 0x02, 0x01, 0x00, 0x30, 0x10, 0x06, 0x07, 0x2A, 0x86, 0x48, 0xCE, 0x3D,
          0x02, 0x01, 0x06, 0x05, 0x2B, 0x81, 0x04, 0x00, 0x0A, 0x04, 0x30, 0x30, 0x2E, 0x02,
          0x01, 0x01, 0x04, 0x20] ++ privateKeyOctets key ++
          [0xA0, 0x07, 0x06, 0x05, 0x2B, 0x81, 0x04, 0x00, 0x0A]) := by
    rw [marshal_eq, encoding_of_32 _ hlen]
  refine ⟨privateKeyOctets key, hlen, ?_, hm, ?_, ?_, ?_⟩
  · rw [beValue_privateKeyOctets]; omega
  · simp [hlen]
  · obtain ⟨out, hout, hread⟩ := readKeyInfo_marshal key
      (Nat.lt_of_le_of_lt hle (by norm_num))
    rw [hm] at hout
    cases hout
    exact hread
  · intro hD
    rw [privateKeyOctets_eq, hD]
    rfl

/-- C2 at the scalar one: the 73 bytes of its encoding. -/
theorem marshal_exact_encoding_witness :
    marshalSecp256k1PrivateKeyToPKCS8 (demo.keyOf 1) = .ok
      ([0x30, 0x47, 0x02, 0x01, 0x00, 0x30, 0x10, 0x06, 0x07, 0x2A, 0x86, 0x48, 0xCE, 0x3D,
        0x02, 0x01, 0x06, 0x05, 0x2B, 0x81, 0x04, 0x00, 0x0A, 0x04, 0x30, 0x30, 0x2E, 0x02,
        0x01, 0x01, 0x04, 0x20] ++ (List.replicate 31 0 ++ [1]) ++
        [0xA0, 0x07, 0x06, 0x05, 0x2B, 0x81, 0x04, 0x00, 0x0A]) := by
  obtain ⟨keyBytes, _, _, hm, _, _, hone⟩ :=
    marshal_exact_encoding (demo.keyOf 1) (by decide) (by decide)
  rw [hm, hone rfl]

/-- C3. Padding invariant: when the natural big-endian bytes of the scalar
(no leading zero byte, value `|D|`) are `n < 32`, the private-key octets are
32 bytes, `32 - n` zero bytes and then those `n` bytes, and they are the
private-key field of the inner record of the encoder's output. The scalar
zero, with no natural byte, gives 32 zero bytes. -/
theorem marshal_padding_invariant (key : PrivateKey) (h : (bigIntBytes key.D).length < 32) :
    (privateKeyOctets key).length = 32 ∧
    privateKeyOctets key =
      List.replicate (32 - (bigIntBytes key.D).length) 0 ++ bigIntBytes key.D ∧
    (beValue (bigIntBytes key.D) = key.D.natAbs ∧ (bigIntBytes key.D).head? ≠ some 0) ∧
    (∃ out info, marshalSecp256k1PrivateKeyToPKCS8 key = .ok out ∧
      readKeyInfo out = some info ∧ info.privateKey = privateKeyOctets key) ∧
    (key.D = 0 → bigIntBytes key.D = [] ∧ privateKeyOctets key = List.replicate 32 0) := by
  refine ⟨?_, privateKeyOctets_eq key, ⟨beValue_natBytes _, natBytes_head_ne_zero _⟩, ?_, ?_⟩
  · rw [privateKeyOctets_length]; omega
  · obtain ⟨out, hout, hread⟩ := readKeyInfo_marshal key (Nat.lt_trans h (by norm_num))
    exact ⟨out, _, hout, hread, rfl⟩
  · intro hD
    rw [privateKeyOctets_eq, hD]
    exact ⟨rfl, rfl⟩

/-- C3 at the scalar `0x0102`, of two natural bytes: thirty zero bytes, then
`01 02`. -/
theorem marshal_padding_invariant_witness :
    (bigIntBytes (demo.keyOf 258).D).length < 32 ∧
    privateKeyOctets (demo.keyOf 258) = List.replicate 30 0 ++ [1, 2] :=
  ⟨by decide, (marshal_padding_invariant (demo.keyOf 258) (by decide)).2.1⟩

/-- C8. The encoder never fails: for every scalar (zero, negative and beyond
the curve order included) both `asn1.Marshal` calls return a byte string and
the encoder returns the second one with a nil error. -/
theorem marshal_never_fails (key : PrivateKey) :
    ∃ sec1Der out,
      asn1.Marshal (sec1Key (privateKeyOctets key)) = .ok sec1Der ∧
      asn1.Marshal (pkcs8 sec1Der) = .ok out ∧
      marshalSecp256k1PrivateKeyToPKCS8 key = .ok out := by
  refine ⟨_, _, Marshal_sec1Key _, Marshal_pkcs8 _, ?_⟩
  simp only [marshalSecp256k1PrivateKeyToPKCS8, Marshal_sec1Key, Marshal_pkcs8]

/-- C9. Determinism: the output of the encoder depends on the scalar only;
two keys with the same scalar, whatever their public point and curve
parameters, have the same encoding. -/
theorem marshal_deterministic (key1 key2 : PrivateKey) (h : key1.D = key2.D) :
    marshalSecp256k1PrivateKeyToPKCS8 key1 = marshalSecp256k1PrivateKeyToPKCS8 key2 := by
  simp only [marshalSecp256k1PrivateKeyToPKCS8, privateKeyOctets, h]

/-- C9 at two keys with the scalar 5 and different public parts. -/
theorem marshal_deterministic_witness :
    (⟨⟨demo.curve, 3, 4⟩, 5⟩ : PrivateKey) ≠ ⟨⟨⟨1, 2, 3, 4, 5, 6, "other"⟩, 7, 8⟩, 5⟩ ∧
    marshalSecp256k1PrivateKeyToPKCS8 ⟨⟨demo.curve, 3, 4⟩, 5⟩ =
      marshalSecp256k1PrivateKeyToPKCS8 ⟨⟨⟨1, 2, 3, 4, 5, 6, "other"⟩, 7, 8⟩, 5⟩ :=
  ⟨by decide, marshal_deterministic _ _ rfl⟩

/-- C10. No truncation: a scalar of `2 ^ 256` or more keeps all its natural
bytes as private-key octets, more than 32, and its encoding is longer than 73
bytes; the octets are exactly 32 if and only if the scalar is below `2 ^ 256`;
for every scalar the octets read big-endian give the scalar back; the
encoding holds the octets as the OCTET STRING of the inner record, and the
DER reader finds them there (for every scalar whose bytes fit a Go slice). -/
theorem marshal_no_truncation (key : PrivateKey) :
    (2 ^ 256 ≤ key.D.natAbs →
      privateKeyOctets key = bigIntBytes key.D ∧ 32 < (privateKeyOctets key).length ∧
      ∃ out, marshalSecp256k1PrivateKeyToPKCS8 key = .ok out ∧ 73 < out.length) ∧
    ((privateKeyOctets key).length = 32 ↔ key.D.natAbs < 2 ^ 256) ∧
    beValue (privateKeyOctets key) = key.D.natAbs ∧
    marshalSecp256k1PrivateKeyToPKCS8 key = .ok
      (derSequence ([2, 1, 0] ++ ([0x30, 0x10, 6, 7, 0x2A, 0x86, 0x48, 0xCE, 0x3D, 2, 1, 6, 5,
        0x2B, 0x81, 4, 0, 10] ++ derOctetString (derSequence ([2, 1, 1] ++
          (derOctetString (privateKeyOctets key) ++ [0xA0, 7, 6, 5, 0x2B, 0x81, 4, 0, 10])))))) ∧
    ((bigIntBytes key.D).length < 2 ^ 62 →
      ∃ out info, marshalSecp256k1PrivateKeyToPKCS8 key = .ok out ∧
        readKeyInfo out = some info ∧ info.privateKey = privateKeyOctets key) := by
  have hiff := bigIntBytes_length_le_32 key
  have hlen := privateKeyOctets_length key
  refine ⟨?_, ?_, beValue_privateKeyOctets key, marshal_eq key, ?_⟩
  · intro hbig
    have hn : 32 < (bigIntBytes key.D).length := by
      by_contra hc
      have := hiff.mp (by omega)
      omega
    have heq : privateKeyOctets key = bigIntBytes key.D := by
      rw [privateKeyOctets_eq]
      have : 32 - (bigIntBytes key.D).length = 0 := by omega
      rw [this]; rfl
    refine ⟨heq, by omega, ?_⟩
    obtain ⟨out, hout, hl⟩ := marshal_length key
    exact ⟨out, hout, by omega⟩
  · constructor
    · intro h32
      exact hiff.mp (by omega)
    · intro hlt
      have := hiff.mpr hlt
      omega
  · intro hfit
    obtain ⟨out, hout, hread⟩ := readKeyInfo_marshal key hfit
    exact ⟨out, _, hout, hread, rfl⟩

/-- C10 at the scalar `2 ^ 256`: 33 private-key octets, `01` and 32 zero
bytes. -/
theorem marshal_no_truncation_witness :
    privateKeyOctets (demo.keyOf (2 ^ 256)) = 1 :: List.replicate 32 0 ∧
    32 < (privateKeyOctets (demo.keyOf (2 ^ 256))).length := by
  have h := (marshal_no_truncation (demo.keyOf (2 ^ 256))).1 (by decide)
  refine ⟨?_, h.2.1⟩
  rw [h.1]
  decide

/-- C1. Round trip of the envelope: with a decryption that undoes
`rsa.EncryptOAEP` on ciphertexts as long as the modulus, and an unwrap that
undoes KWP wrapping, whenever `wrapOperatorPrivateKey` succeeds, opening the
returned ciphertext (base64-decode, split at the byte length `k` of the
modulus, decrypt the first part to the AES key, unwrap the rest with it) gives
exactly the bytes `marshalSecp256k1PrivateKeyToPKCS8` returns for the scalar. -/
theorem wrap_round_trip {ρ κ : Type} (env : Env ρ κ)
    (decrypt : RSAPublicKey → List Byte → Option (List Byte))
    (unwrap : List Byte → List Byte → Option (List Byte))
    (hrsa : ∀ rand pub msg label c rand2, env.EncryptOAEP rand pub msg label = (.ok c, rand2) →
      decrypt pub c = some msg ∧ c.length = pub.Size)
    (hkwp : ∀ aesKey wrapper data wrapped, env.NewKWP aesKey = .ok wrapper →
      env.Wrap wrapper data = .ok wrapped → unwrap aesKey wrapped = some data)
    (operatorPriv wrappingPEM : String) (rand : ρ)
    (hok : (wrapOperatorPrivateKey env operatorPriv wrappingPEM rand).err = none) :
    ∃ priv block rsaPub pkcs8Bytes,
      env.HexToECDSA operatorPriv = .ok priv ∧
      env.pemDecode (String.mk (replaceBackslashN wrappingPEM.data)) = some block ∧
      env.ParsePKIXPublicKey block.Bytes = .ok (.rsa rsaPub) ∧
      marshalSecp256k1PrivateKeyToPKCS8 priv = .ok pkcs8Bytes ∧
      openEnvelope (decrypt rsaPub) unwrap rsaPub.Size
        (wrapOperatorPrivateKey env operatorPriv wrappingPEM rand).ciphertext =
        some pkcs8Bytes := by
  obtain ⟨priv, pkcs8Bytes, block, rsaPub, read, rand1, wrapper, wrappedKey, enc, rand2,
    _, h2, h3, _, h5, h6, _, h8, h9, h10, _, hct, _⟩ :=
    wrap_success env operatorPriv wrappingPEM rand hok
  refine ⟨priv, block, rsaPub, pkcs8Bytes, h2, h5, h6, h3, ?_⟩
  obtain ⟨hdec, hlen⟩ := hrsa _ _ _ _ _ _ h10
  have hun := hkwp _ _ _ _ h8 h9
  rw [hct]
  unfold openEnvelope
  rw [base64.DecodeString_EncodeToString]
  simp only
  rw [List.take_left' hlen, List.drop_left' hlen, hdec]
  exact hun

/-- C1 in the small environment: the envelope of the scalar one opens to its
73 bytes. -/
theorem wrap_round_trip_witness :
    (wrapOperatorPrivateKey demo.env demo.scalarOne demo.wrappingKey demo.tape).err = none ∧
    ∃ rsaPub pkcs8Bytes,
      marshalSecp256k1PrivateKeyToPKCS8 (demo.keyOf 1) = .ok pkcs8Bytes ∧
      openEnvelope (demo.decrypt rsaPub) demo.unwrap rsaPub.Size
        (wrapOperatorPrivateKey demo.env demo.scalarOne demo.wrappingKey demo.tape).ciphertext =
      some pkcs8Bytes := by
  refine ⟨by decide, ?_⟩
  obtain ⟨priv, block, rsaPub, pkcs8Bytes, h2, _, _, h3, hopen⟩ :=
    wrap_round_trip demo.env demo.decrypt demo.unwrap demo_decrypt_EncryptOAEP demo_unwrap_Wrap
      demo.scalarOne demo.wrappingKey demo.tape (by decide)
  have hp : demo.env.HexToECDSA demo.scalarOne = .ok (demo.keyOf 1) := rfl
  rw [hp] at h2
  cases h2
  exact ⟨rsaPub, pkcs8Bytes, h3, hopen⟩

/-- C4. Envelope layout: whenever `wrapOperatorPrivateKey` succeeds, the
ciphertext it returns is the standard base64 text of the RSA-OAEP ciphertext of
the AES key (the 32 bytes drawn, encrypted to the parsed RSA key) followed by
the KWP wrap of the PKCS#8 bytes under that AES key; decoding it gives exactly
that concatenation, its characters are of the standard alphabet or the padding
character, and its length is a multiple of 4. -/
theorem wrap_envelope_layout {ρ κ : Type} (env : Env ρ κ)
    (operatorPriv wrappingPEM : String) (rand : ρ)
    (hok : (wrapOperatorPrivateKey env operatorPriv wrappingPEM rand).err = none) :
    ∃ priv pkcs8Bytes block rsaPub read aesKey rand1 wrapper wrappedKey encryptedAESKey rand2,
      env.HexToECDSA operatorPriv = .ok priv ∧
      marshalSecp256k1PrivateKeyToPKCS8 priv = .ok pkcs8Bytes ∧
      env.pemDecode (String.mk (replaceBackslashN wrappingPEM.data)) = some block ∧
      env.ParsePKIXPublicKey block.Bytes = .ok (.rsa rsaPub) ∧
      env.randRead rand 32 = (.ok read, rand1) ∧ aesKey = copy (make 32) read ∧
      env.NewKWP aesKey = .ok wrapper ∧
      env.Wrap wrapper pkcs8Bytes = .ok wrappedKey ∧
      env.EncryptOAEP rand1 rsaPub aesKey [] = (.ok encryptedAESKey, rand2) ∧
      (wrapOperatorPrivateKey env operatorPriv wrappingPEM rand).ciphertext =
        base64.EncodeToString (encryptedAESKey ++ wrappedKey) ∧
      base64.DecodeString (wrapOperatorPrivateKey env operatorPriv wrappingPEM rand).ciphertext =
        some (encryptedAESKey ++ wrappedKey) ∧
      (∀ ch ∈ (wrapOperatorPrivateKey env operatorPriv wrappingPEM rand).ciphertext.data,
        ch ∈ base64.encodeStd ∨ ch = base64.padChar) ∧
      (wrapOperatorPrivateKey env operatorPriv wrappingPEM rand).ciphertext.length % 4 = 0 := by
  obtain ⟨priv, pkcs8Bytes, block, rsaPub, read, rand1, wrapper, wrappedKey, enc, rand2,
    _, h2, h3, _, h5, h6, h7, h8, h9, h10, _, hct, _⟩ :=
    wrap_success env operatorPriv wrappingPEM rand hok
  refine ⟨priv, pkcs8Bytes, block, rsaPub, read, _, rand1, wrapper, wrappedKey, enc, rand2,
    h2, h3, h5, h6, h7, rfl, h8, h9, h10, hct, ?_, ?_, ?_⟩
  · rw [hct]; exact base64.DecodeString_EncodeToString _
  · rw [hct]; exact base64.Encode_alphabet _
  · rw [hct]; exact base64.Encode_length _

/-- C4 in the small environment: the envelope is 280 characters, the text of
128 + 81 bytes. -/
theorem wrap_envelope_layout_witness :
    (wrapOperatorPrivateKey demo.env demo.scalarOne demo.wrappingKey demo.tape).err = none ∧
    (wrapOperatorPrivateKey demo.env demo.scalarOne demo.wrappingKey
      demo.tape).ciphertext.length % 4 = 0 := by
  refine ⟨by decide, ?_⟩
  obtain ⟨_, _, _, _, _, _, _, _, _, _, _, _, _, _, _, _, _, _, _, _, _, _, _, hlen⟩ :=
    wrap_envelope_layout demo.env demo.scalarOne demo.wrappingKey demo.tape (by decide)
  exact hlen

/-- C5. All or nothing: whenever `wrapOperatorPrivateKey` returns a non-nil
error, at whichever step, the address it returns is the zero address and the
ciphertext the empty string. -/
theorem wrap_all_or_nothing {ρ κ : Type} (env : Env ρ κ)
    (operatorPriv wrappingPEM : String) (rand : ρ)
    (herr : (wrapOperatorPrivateKey env operatorPriv wrappingPEM rand).err ≠ none) :
    (wrapOperatorPrivateKey env operatorPriv wrappingPEM rand).address = zeroAddress ∧
    (wrapOperatorPrivateKey env operatorPriv wrappingPEM rand).ciphertext = "" := by
  rcases wrap_error_or_zero env operatorPriv wrappingPEM rand with h | h
  · exact absurd h herr
  · exact h

/-- C5 in the small environment, at a wrapping text that is no key: the
parser fails after the identifier is computed, and nothing is returned. -/
theorem wrap_all_or_nothing_witness :
    (wrapOperatorPrivateKey demo.env demo.scalarOne "no key" demo.tape).err =
      some (.library "x509: unknown public key algorithm") ∧
    (wrapOperatorPrivateKey demo.env demo.scalarOne "no key" demo.tape).address = zeroAddress ∧
    (wrapOperatorPrivateKey demo.env demo.scalarOne "no key" demo.tape).ciphertext = "" :=
  ⟨by decide, wrap_all_or_nothing demo.env demo.scalarOne "no key" demo.tape (by decide)⟩

/-- C7. The empty scalar is rejected first: with an empty operator private
key the function returns the error "operator private key is required", the
zero address and no ciphertext, whatever the wrapping PEM and the libraries
are; the random source is returned untouched and no call was made, so
neither of the two draws happened and the encoder did not run. -/
theorem wrap_empty_scalar_first {ρ κ : Type} (env : Env ρ κ) (wrappingPEM : String) (rand : ρ) :
    (wrapOperatorPrivateKey env "" wrappingPEM rand).err =
      some (.errorsNew "operator private key is required") ∧
    (wrapOperatorPrivateKey env "" wrappingPEM rand).address = zeroAddress ∧
    (wrapOperatorPrivateKey env "" wrappingPEM rand).ciphertext = "" ∧
    (wrapOperatorPrivateKey env "" wrappingPEM rand).rand = rand ∧
    (wrapOperatorPrivateKey env "" wrappingPEM rand).calls = [] ∧
    (∀ n, Call.randRead n ∉ (wrapOperatorPrivateKey env "" wrappingPEM rand).calls) ∧
    Call.EncryptOAEP ∉ (wrapOperatorPrivateKey env "" wrappingPEM rand).calls ∧
    Call.marshalSecp256k1PrivateKeyToPKCS8 ∉
      (wrapOperatorPrivateKey env "" wrappingPEM rand).calls := by
  simp [wrapOperatorPrivateKey]

/-- C6. Modulus too small: let the scalar text parse to a scalar (below
`2 ^ 256`, as `crypto.HexToECDSA` gives) and the wrapping text to an RSA
public key whose modulus has `k < 98` bytes, and let the libraries keep their
contracts (KWP takes a 32-byte key and wraps inputs of 16 to 4096 bytes;
RSA-OAEP with SHA-256 fails on a message longer than `k - 66` bytes). Then
`wrapOperatorPrivateKey` fails and returns the zero address and the empty
string whatever the random source gives, and once the AES key is drawn the
error it returns is the error of the RSA-OAEP step. -/
theorem wrap_modulus_too_small {ρ κ : Type} (env : Env ρ κ)
    (operatorPriv wrappingPEM : String) (rand : ρ)
    (priv : PrivateKey) (block : PemBlock) (rsaPub : RSAPublicKey)
    (hne : operatorPriv ≠ "") (hkey : env.HexToECDSA operatorPriv = .ok priv)
    (hD : priv.D.natAbs < 2 ^ 256)
    (hpem : wrappingPEM ≠ "")
    (hblock : env.pemDecode (String.mk (replaceBackslashN wrappingPEM.data)) = some block)
    (hparse : env.ParsePKIXPublicKey block.Bytes = .ok (.rsa rsaPub))
    (hk : rsaPub.Size < 98)
    (hNewKWP : ∀ key, key.length = 32 → ∃ wrapper, env.NewKWP key = .ok wrapper)
    (hWrap : ∀ wrapper data, 16 ≤ data.length → data.length ≤ 4096 →
      ∃ wrapped, env.Wrap wrapper data = .ok wrapped)
    (hOAEP : ∀ rand pub msg label, pub.Size < msg.length + 66 →
      ∃ e rand2, env.EncryptOAEP rand pub msg label = (.error e, rand2)) :
    (wrapOperatorPrivateKey env operatorPriv wrappingPEM rand).err ≠ none ∧
    (wrapOperatorPrivateKey env operatorPriv wrappingPEM rand).address = zeroAddress ∧
    (wrapOperatorPrivateKey env operatorPriv wrappingPEM rand).ciphertext = "" ∧
    (∀ read rand1, env.randRead rand 32 = (.ok read, rand1) →
      ∃ e rand2, env.EncryptOAEP rand1 rsaPub (copy (make 32) read) [] = (.error e, rand2) ∧
        (wrapOperatorPrivateKey env operatorPriv wrappingPEM rand).err = some e ∧
        (wrapOperatorPrivateKey env operatorPriv wrappingPEM rand).rand = rand2) := by
  have hmake : (make 32).length = 32 := by simp [make]
  have hfail : (wrapOperatorPrivateKey env operatorPriv wrappingPEM rand).err ≠ none := by
    intro hnone
    obtain ⟨priv2, pkcs8Bytes, block2, rsaPub2, read, rand1, wrapper, wrappedKey, enc, rand2,
      _, _, _, _, h5, h6, _, _, _, h10, _, _, _⟩ :=
      wrap_success env operatorPriv wrappingPEM rand hnone
    rw [hblock] at h5
    cases h5
    rw [hparse] at h6
    cases h6
    obtain ⟨e, r, he⟩ := hOAEP rand1 rsaPub (copy (make 32) read) []
      (by rw [copy_length, hmake]; omega)
    rw [he] at h10
    cases h10
  refine ⟨hfail, ?_, ?_, ?_⟩
  · rcases wrap_error_or_zero env operatorPriv wrappingPEM rand with h | h
    · exact absurd h hfail
    · exact h.1
  · rcases wrap_error_or_zero env operatorPriv wrappingPEM rand with h | h
    · exact absurd h hfail
    · exact h.2
  · intro read rand1 hread
    obtain ⟨pkcs8Bytes, hm, hlen⟩ := marshal_length_73 priv hD
    obtain ⟨wrapper, hw⟩ := hNewKWP (copy (make 32) read) (by rw [copy_length, hmake])
    obtain ⟨wrapped, hwr⟩ := hWrap wrapper pkcs8Bytes (by omega) (by omega)
    obtain ⟨e, rand2, he⟩ := hOAEP rand1 rsaPub (copy (make 32) read) []
      (by rw [copy_length, hmake]; omega)
    refine ⟨e, rand2, he, ?_, ?_⟩
    all_goals
      simp only [wrapOperatorPrivateKey, hne, if_false, hkey, hm, hpem, hblock, hparse, hmake,
        hread, hw, hwr, he]

/-- C6 in the small environment, with a modulus of 2 bytes. -/
theorem wrap_modulus_too_small_witness :
    (RSAPublicKey.mk 31354 65537).Size < 98 ∧
    (wrapOperatorPrivateKey demo.env demo.scalarOne demo.smallWrappingKey demo.tape).err ≠ none ∧
    (wrapOperatorPrivateKey demo.env demo.scalarOne demo.smallWrappingKey demo.tape).address =
      zeroAddress ∧
    (wrapOperatorPrivateKey demo.env demo.scalarOne demo.smallWrappingKey demo.tape).ciphertext =
      "" := by
  have h := wrap_modulus_too_small demo.env demo.scalarOne demo.smallWrappingKey demo.tape
    (demo.keyOf 1) ⟨"PUBLIC KEY", [82, 122, 122]⟩ ⟨31354, 65537⟩
    (by decide) rfl (by decide) (by decide) rfl rfl (by decide)
    demo_NewKWP_32 demo_Wrap_range demo_EncryptOAEP_too_long
  exact ⟨by decide, h.1, h.2.1, h.2.2.1⟩

end OperatorBinaries
